import Mathlib

/-!
Verification of the validation, slug-derivation, diagnosis and persistence
pipeline of the two Python programs of the repository: app.py (terminal
front end) and web_app.py (Streamlit front end).  The Python functions are
shallowly embedded as executable Lean definitions.  Ambient state of the
Python process — the OPENAI_API_KEY environment variable, the values
returned by datetime.now(), the outcome of the external chat-completion
call, and the contents of the outputs directory — is passed to the
embedded functions as explicit parameters.
-/

namespace ProofByOutput

/-- Characters that Python's str.isspace considers whitespace; str.strip()
with no argument removes exactly these from both ends of a string. -/
def pyWhitespace : List Char :=
  [' ', '\t', '\n', '\x0b', '\x0c', '\r',
   '\x1c', '\x1d', '\x1e', '\x1f', '\x85', '\xa0',
   '\u1680', '\u2000', '\u2001', '\u2002', '\u2003', '\u2004', '\u2005',
   '\u2006', '\u2007', '\u2008', '\u2009', '\u200a', '\u2028', '\u2029',
   '\u202f', '\u205f', '\u3000']

def pyIsSpace (c : Char) : Bool := pyWhitespace.contains c

/-- Python str.strip() on a list of characters: drop leading and trailing
whitespace. -/
def pyStrip (l : List Char) : List Char :=
  ((l.dropWhile pyIsSpace).reverse.dropWhile pyIsSpace).reverse

/-- Membership test for the regex character class [a-z0-9_-] used by
safe_filename (the characters the substitution keeps). -/
def isSafeChar (c : Char) : Bool :=
  (97 ≤ c.toNat && c.toNat ≤ 122) || (48 ≤ c.toNat && c.toNat ≤ 57) ||
  c.toNat == 95 || c.toNat == 45

/-- Model of Python str.lower(), character by character.  Python applies
the Unicode lowercase mapping.  The model maps A-Z to a-z, U+212A KELVIN
SIGN to k (its Unicode simple lowercase mapping), and U+0130 LATIN CAPITAL
LETTER I WITH DOT ABOVE to the two characters i, U+0307 (its full
lowercase mapping); these are the only Unicode characters whose lowercase
contains a character of the class [a-z0-9_-].  Every other character is
kept unchanged: its true lowercase lies, like the character itself,
outside [a-z0-9_-], and safe_filename treats the two identically (both are
collapsed into an underscore by the substitution step). -/
def pyLowerChar (c : Char) : List Char :=
  if 65 ≤ c.toNat && c.toNat ≤ 90 then [Char.ofNat (c.toNat + 32)]
  else if c.toNat == 304 then ['i', '\u0307']
  else if c.toNat == 8490 then ['k']
  else [c]

/-- Python str.lower() over a whole string (as a character list). -/
def pyLowerList : List Char → List Char
  | [] => []
  | c :: cs => pyLowerChar c ++ pyLowerList cs

/-- Model of re.sub(r"[^a-z0-9_-]+", "_", text): every maximal run of
characters outside [a-z0-9_-] is replaced by a single underscore.  The
Boolean argument records whether the previous character was part of such a
run (in which case the underscore for the run has already been emitted). -/
def subUnsafeAux : Bool → List Char → List Char
  | _, [] => []
  | inRun, c :: cs =>
    if isSafeChar c then c :: subUnsafeAux false cs
    else if inRun then subUnsafeAux true cs
    else '_' :: subUnsafeAux true cs

def subUnsafe (l : List Char) : List Char := subUnsafeAux false l

/-- Remove a maximal trailing run of underscores. -/
def dropTrailingUs : List Char → List Char
  | [] => []
  | c :: cs =>
    let r := dropTrailingUs cs
    if r.isEmpty then (if c == '_' then [] else [c]) else c :: r

/-- Python str.strip("_"): drop leading and trailing underscores. -/
def stripUnderscores (l : List Char) : List Char :=
  dropTrailingUs (l.dropWhile (fun c => c == '_'))

/-- Embedding of safe_filename from app.py / web_app.py (both files define
the identical function):
    text = text.strip().lower()
    text = re.sub(r"[^a-z0-9_-]+", "_", text)
    text = text.strip("_")
    return (text[:max_len] or "topic")
with the default max_len = 40 used by every call site. -/
def safe_filename (text : String) : String :=
  let t1 := pyLowerList (pyStrip text.toList)
  let t2 := subUnsafe t1
  let t3 := stripUnderscores t2
  let t4 := t3.take 40
  if t4.isEmpty then ("topic") else String.mk t4

/-- Definition written from the specification's wording of the slug
derivation, for comparison with the code's safe_filename: "lowercase,
strip leading/trailing whitespace, replace every run of characters outside
[a-z0-9_-] with a single underscore, strip leading/trailing underscores,
truncate to 40 characters, and if the result is empty substitute the
literal fallback topic".  It lowercases before stripping whitespace,
in that order; the code strips first. -/
def safeSlugSpec (text : String) : String :=
  let t1 := pyStrip (pyLowerList text.toList)
  let t2 := subUnsafe t1
  let t3 := stripUnderscores t2
  let t4 := t3.take 40
  if t4.isEmpty then ("topic") else String.mk t4

/-- Constant APP_NAME of both files. -/
def APP_NAME : String := "Proof by Output"

/-- Constant MIN_CHARS of both files. -/
def MIN_CHARS : Nat := 60

def digitChar (n : Nat) : Char := Char.ofNat (48 + n)

def natDigitsAux : Nat → Nat → List Char → List Char
  | 0, _, acc => acc
  | fuel+1, n, acc =>
    if n < 10 then digitChar n :: acc
    else natDigitsAux fuel (n / 10) (digitChar (n % 10) :: acc)

/-- Decimal digit string of a natural number, matching Python str(int) for
nonnegative integers. -/
def natDigits (n : Nat) : List Char := natDigitsAux (n+1) n []

def natStr (n : Nat) : String := String.mk (natDigits n)

/-- Embedding of count_chars: len(text), the raw character count
(newlines and whitespace included). -/
def count_chars (text : String) : Nat := text.length

/-- Message returned by validate_input for an empty topic. -/
def topicRequiredMsg : String := "トピック名は必須です。例: TypeScriptのUnion型"

/-- Message returned by validate_input for an under-length explanation; it
embeds MIN_CHARS, the current character count and the deficit
MIN_CHARS - count. -/
def lengthFailMsg (count : Nat) : String :=
  "説明文は" ++ natStr MIN_CHARS ++ "文字以上必要です（現在" ++ natStr count ++
  "文字、あと" ++ natStr (MIN_CHARS - count) ++ "文字）。\n" ++
  "ヒント: 『〜とは』『なぜ使うか』『具体例』の3点を書くと到達しやすいです。"

/-- Message returned by web_app.validate_input when OPENAI_API_KEY is not
set. -/
def apiKeyMsg : String := "OPENAI_API_KEY が見つかりません。.env を確認してください。"

namespace App

/-- Embedding of validate_input from app.py (the statements after its
first return are unreachable and are not part of the model):
    if not topic: return False, "トピック名は必須です。例: ..."
    char_count = count_chars(explanation)
    if char_count < MIN_CHARS: return False, f"説明文は..."
    return True, ""
A Python string is falsy exactly when it is empty, so the topic test
succeeds for every non-empty string, including whitespace-only ones. -/
def validate_input (topic explanation : String) : Bool × String :=
  if topic = "" then (false, topicRequiredMsg)
  else if count_chars explanation < MIN_CHARS then
    (false, lengthFailMsg (count_chars explanation))
  else (true, "")

end App

namespace Web

/-- Embedding of validate_input from web_app.py.  It performs the same two
checks as the terminal variant and additionally fails when the module
level api_key (os.getenv("OPENAI_API_KEY")) is absent; the presence of the
key is passed as the explicit Boolean apiKey. -/
def validate_input (apiKey : Bool) (topic explanation : String) : Bool × String :=
  if topic = "" then (false, topicRequiredMsg)
  else if count_chars explanation < MIN_CHARS then
    (false, lengthFailMsg (count_chars explanation))
  else if !apiKey then (false, apiKeyMsg)
  else (true, "")

end Web

/-! ## JSON values

The payload written by save_record and the reply parsed by evaluate are
JSON documents.  JSON values are modeled by a mutual inductive family; a
JSON object is an ordered association list of key/value pairs, standing
for an insertion-ordered Python dict. -/

mutual
inductive JValue where
  | jnull
  | jbool (b : Bool)
  | jint (n : Int)
  | jstr (s : String)
  | jarr (items : JItems)
  | jobj (members : JMembers)
  deriving DecidableEq

inductive JItems where
  | nil
  | cons (head : JValue) (tail : JItems)
  deriving DecidableEq

inductive JMembers where
  | nil
  | cons (key : String) (val : JValue) (tail : JMembers)
  deriving DecidableEq
end

def JItems.append : JItems → JItems → JItems
  | .nil, ys => ys
  | .cons x xs, ys => .cons x (JItems.append xs ys)

def JMembers.append : JMembers → JMembers → JMembers
  | .nil, ys => ys
  | .cons k v ms, ys => .cons k v (JMembers.append ms ys)

/-- Model of the Python dict assignment d[k] = v on an insertion-ordered
dict: an existing key keeps its position and gets the new value, a new key
is appended at the end. -/
def JMembers.insert : JMembers → String → JValue → JMembers
  | .nil, k, v => .cons k v .nil
  | .cons k0 v0 ms, k, v =>
    if k0 = k then .cons k0 v ms else .cons k0 v0 (JMembers.insert ms k v)

/-- Key list of an object, in insertion order (Python list(d.keys())). -/
def JMembers.keyList : JMembers → List String
  | .nil => []
  | .cons k _ ms => k :: JMembers.keyList ms

/-- Model of the Python dict access d.get(k): the value stored under the
first (hence only) occurrence of the key. -/
def JMembers.lookup : JMembers → String → Option JValue
  | .nil, _ => none
  | .cons k0 v0 ms, k => if k0 = k then some v0 else JMembers.lookup ms k

def distinctKeys : List String → Bool
  | [] => true
  | k :: ks => !(ks.contains k) && distinctKeys ks

mutual
/-- Every object inside the value has pairwise distinct keys.  Values
decoded from JSON text by a Python dict-based parser always satisfy this
(a dict cannot hold a key twice). -/
def nodupKeys : JValue → Bool
  | .jnull => true
  | .jbool _ => true
  | .jint _ => true
  | .jstr _ => true
  | .jarr xs => nodupKeysItems xs
  | .jobj ms => distinctKeys ms.keyList && nodupKeysMembers ms

def nodupKeysItems : JItems → Bool
  | .nil => true
  | .cons x xs => nodupKeys x && nodupKeysItems xs

def nodupKeysMembers : JMembers → Bool
  | .nil => true
  | .cons _ v ms => nodupKeys v && nodupKeysMembers ms
end

/-! ## Serializer

Model of json.dump(payload, f, ensure_ascii=False, indent=2), the exact
call made by save_record in both files: two-space indentation, items
separated by a comma placed directly after the value and followed by a
newline and indentation, keys separated from values by a colon and one
space, characters above U+001F other than the quote and the backslash
written literally (ensure_ascii=False), and the control characters
escaped the way json.encoder does. -/

def hexDigitChar (n : Nat) : Char :=
  if n < 10 then Char.ofNat (48 + n) else Char.ofNat (87 + n)

/-- Escape of one character inside a JSON string, following
json.encoder.ESCAPE_DCT with ensure_ascii=False: the quote, the backslash
and the five short control escapes get two-character escapes, the
remaining control characters get a lowercase \u00xx escape, and every
other character is written literally. -/
def escapeChar (c : Char) : List Char :=
  if c.toNat == 34 then ['\\', '"']
  else if c.toNat == 92 then ['\\', '\\']
  else if c.toNat == 10 then ['\\', 'n']
  else if c.toNat == 13 then ['\\', 'r']
  else if c.toNat == 9 then ['\\', 't']
  else if c.toNat == 8 then ['\\', 'b']
  else if c.toNat == 12 then ['\\', 'f']
  else if c.toNat < 32 then
    ['\\', 'u', '0', '0', hexDigitChar (c.toNat / 16), hexDigitChar (c.toNat % 16)]
  else [c]

def encChars : List Char → List Char
  | [] => []
  | c :: cs => escapeChar c ++ encChars cs

/-- Serialized form of a JSON string: quote, escaped characters, quote. -/
def encodeString (s : String) : List Char :=
  '"' :: (encChars s.toList ++ ['"'])

/-- Decimal representation of an integer, matching Python str(int). -/
def intRepr (i : Int) : List Char :=
  if i < 0 then '-' :: natDigits i.natAbs else natDigits i.natAbs

/-- Newline plus the two-space indentation of the given nesting level. -/
def nlInd (lvl : Nat) : List Char := '\n' :: List.replicate (2 * lvl) ' '

mutual
def emitVal : Nat → JValue → List Char
  | _, .jnull => ['n', 'u', 'l', 'l']
  | _, .jbool true => ['t', 'r', 'u', 'e']
  | _, .jbool false => ['f', 'a', 'l', 's', 'e']
  | _, .jint i => intRepr i
  | _, .jstr s => encodeString s
  | _, .jarr .nil => ['[', ']']
  | lvl, .jarr (.cons x xs) =>
    '[' :: (nlInd (lvl+1) ++ emitVal (lvl+1) x ++ emitItems (lvl+1) xs ++
      nlInd lvl ++ [']'])
  | _, .jobj .nil => ['\x7b', '\x7d']
  | lvl, .jobj (.cons k v ms) =>
    '\x7b' :: (nlInd (lvl+1) ++ encodeString k ++ ':' :: ' ' ::
      (emitVal (lvl+1) v ++ emitMembers (lvl+1) ms ++ nlInd lvl ++ ['\x7d']))

def emitItems : Nat → JItems → List Char
  | _, .nil => []
  | lvl, .cons x xs => ',' :: (nlInd lvl ++ emitVal lvl x ++ emitItems lvl xs)

def emitMembers : Nat → JMembers → List Char
  | _, .nil => []
  | lvl, .cons k v ms =>
    ',' :: (nlInd lvl ++ encodeString k ++ ':' :: ' ' ::
      (emitVal lvl v ++ emitMembers lvl ms))
end

/-- Model of json.dump(payload, f, ensure_ascii=False, indent=2): the text
written to the file. -/
def dumps (v : JValue) : String := String.mk (emitVal 0 v)

/-! ## Parser

Model of json.loads, the parse applied by evaluate to the chat reply and
by load_history to each stored file.  Numeric literals are restricted to
the integer part of the json.decoder NUMBER_RE grammar: a fraction or
exponent part, which Python would read as a float, is reported as an
error instead (floating point is outside this model; the repository's own
serializer never writes one, every number in a record being an int).
Surrogate pairing of adjacent \uXXXX escapes is likewise not modeled. -/

def isJsonWs (c : Char) : Bool :=
  c.toNat == 32 || c.toNat == 9 || c.toNat == 10 || c.toNat == 13

def skipWs (l : List Char) : List Char := l.dropWhile isJsonWs

def hexVal (c : Char) : Option Nat :=
  if 48 ≤ c.toNat && c.toNat ≤ 57 then some (c.toNat - 48)
  else if 97 ≤ c.toNat && c.toNat ≤ 102 then some (c.toNat - 87)
  else if 65 ≤ c.toNat && c.toNat ≤ 70 then some (c.toNat - 55)
  else none

/-- Decoded character of a two-character escape, following
json.decoder.BACKSLASH. -/
def escDecode (e : Char) : Option Char :=
  if e.toNat == 34 then some '"'
  else if e.toNat == 92 then some '\\'
  else if e.toNat == 47 then some '/'
  else if e.toNat == 98 then some '\x08'
  else if e.toNat == 102 then some '\x0c'
  else if e.toNat == 110 then some '\n'
  else if e.toNat == 114 then some '\r'
  else if e.toNat == 116 then some '\t'
  else none

/-- Parse the body of a JSON string after the opening quote, returning the
decoded characters and the rest of the input after the closing quote
(json.decoder.py_scanstring with the default strict=True, which rejects
unescaped control characters). -/
def parseStringBody : List Char → Except String (List Char × List Char)
  | [] => .error ("Unterminated string")
  | c :: cs =>
    if c.toNat == 34 then .ok ([], cs)
    else if c.toNat == 92 then
      match cs with
      | [] => .error ("Unterminated string")
      | e :: cs2 =>
        if e.toNat == 117 then
          match cs2 with
          | h1 :: h2 :: h3 :: h4 :: cs3 =>
            match hexVal h1, hexVal h2, hexVal h3, hexVal h4 with
            | some a, some b, some x, some y =>
              match parseStringBody cs3 with
              | .ok (s, r) =>
                .ok (Char.ofNat (((a * 16 + b) * 16 + x) * 16 + y) :: s, r)
              | .error msg => .error msg
            | _, _, _, _ => .error ("Invalid \\uXXXX escape")
          | _ => .error ("Invalid \\uXXXX escape")
        else
          match escDecode e with
          | some d =>
            match parseStringBody cs2 with
            | .ok (s, r) => .ok (d :: s, r)
            | .error msg => .error msg
          | none => .error ("Invalid \\escape")
    else if c.toNat < 32 then .error ("Invalid control character")
    else
      match parseStringBody cs with
      | .ok (s, r) => .ok (c :: s, r)
      | .error msg => .error msg

def isDigitB (c : Char) : Bool := 48 ≤ c.toNat && c.toNat ≤ 57

def digitsVal (l : List Char) : Nat :=
  l.foldl (fun a c => 10 * a + (c.toNat - 48)) 0

/-- Integer part of the json.decoder NUMBER_RE grammar: 0, or a nonzero
digit followed by any digits. -/
def parseUIntPart : List Char → Except String (Nat × List Char)
  | [] => .error ("Expecting value")
  | c :: cs =>
    if c.toNat == 48 then .ok (0, cs)
    else if isDigitB c then
      .ok (digitsVal (c :: cs.takeWhile isDigitB), cs.dropWhile isDigitB)
    else .error ("Expecting value")

/-- Reject a following fraction or exponent part, which would make the
literal a Python float (outside this integer-restricted model). -/
def checkNoFrac (v : JValue) (r : List Char) : Except String (JValue × List Char) :=
  match r with
  | [] => .ok (v, r)
  | c :: _ =>
    if c.toNat == 46 || c.toNat == 101 || c.toNat == 69 then
      .error ("float literals are outside this model")
    else .ok (v, r)

def parseNumber (l : List Char) : Except String (JValue × List Char) :=
  match l with
  | [] => .error ("Expecting value")
  | c :: cs =>
    if c.toNat == 45 then
      match parseUIntPart cs with
      | .ok (n, r) => checkNoFrac (.jint (-(n : Int))) r
      | .error msg => .error msg
    else
      match parseUIntPart (c :: cs) with
      | .ok (n, r) => checkNoFrac (.jint (n : Int)) r
      | .error msg => .error msg

/-- Match a fixed sequence of expected characters at the head of the
input, returning the remainder (the scanner's s[idx:idx+n] == word
comparison for the null/true/false literals). -/
def expectChars : List Char → List Char → Option (List Char)
  | [], l => some l
  | _ :: _, [] => none
  | e :: es, c :: cs => if c == e then expectChars es cs else none

mutual
/-- Fueled recursive-descent parser for one JSON value, following the
shape of json.decoder (scan_once / JSONObject / JSONArray).  The fuel
only bounds recursion depth; loads supplies more fuel than any input can
consume, so the fuel branch is never taken on a complete parse. -/
def parseVal : Nat → List Char → Except String (JValue × List Char)
  | 0, _ => .error ("Nesting exhausted the parser fuel")
  | fuel+1, l =>
    match l with
    | [] => .error ("Expecting value")
    | c :: cs =>
      if c.toNat == 123 then
        match skipWs cs with
        | [] => .error ("Expecting property name enclosed in double quotes")
        | d :: ds =>
          if d.toNat == 125 then .ok (.jobj .nil, ds)
          else if d.toNat == 34 then
            match parseStringBody ds with
            | .ok (kchars, r1) =>
              match skipWs r1 with
              | [] => .error ("Expecting : delimiter")
              | e :: es =>
                if e.toNat == 58 then
                  match parseVal fuel (skipWs es) with
                  | .ok (v, r2) =>
                    parseMembers fuel r2 (JMembers.nil.insert (String.mk kchars) v)
                  | .error msg => .error msg
                else .error ("Expecting : delimiter")
            | .error msg => .error msg
          else .error ("Expecting property name enclosed in double quotes")
      else if c.toNat == 91 then
        match skipWs cs with
        | [] => .error ("Expecting value")
        | d :: ds =>
          if d.toNat == 93 then .ok (.jarr .nil, ds)
          else
            match parseVal fuel (d :: ds) with
            | .ok (v, r1) => parseItems fuel r1 (JItems.cons v .nil)
            | .error msg => .error msg
      else if c.toNat == 34 then
        match parseStringBody cs with
        | .ok (s, r) => .ok (.jstr (String.mk s), r)
        | .error msg => .error msg
      else if c.toNat == 116 then
        match expectChars ['r', 'u', 'e'] cs with
        | some r => .ok (.jbool true, r)
        | none => .error ("Expecting value")
      else if c.toNat == 102 then
        match expectChars ['a', 'l', 's', 'e'] cs with
        | some r => .ok (.jbool false, r)
        | none => .error ("Expecting value")
      else if c.toNat == 110 then
        match expectChars ['u', 'l', 'l'] cs with
        | some r => .ok (.jnull, r)
        | none => .error ("Expecting value")
      else if c.toNat == 45 || isDigitB c then parseNumber (c :: cs)
      else .error ("Expecting value")

/-- Continuation of a JSON array after its first value: a comma and a
further value, or the closing bracket. -/
def parseItems : Nat → List Char → JItems → Except String (JValue × List Char)
  | 0, _, _ => .error ("Nesting exhausted the parser fuel")
  | fuel+1, l, acc =>
    match skipWs l with
    | [] => .error ("Expecting , delimiter")
    | c :: cs =>
      if c.toNat == 93 then .ok (.jarr acc, cs)
      else if c.toNat == 44 then
        match parseVal fuel (skipWs cs) with
        | .ok (v, r) => parseItems fuel r (acc.append (JItems.cons v .nil))
        | .error msg => .error msg
      else .error ("Expecting , delimiter")

/-- Continuation of a JSON object after its first member: a comma and a
further key/value pair, or the closing brace.  The accumulated members
stand for the dict Python builds from the parsed pairs. -/
def parseMembers : Nat → List Char → JMembers → Except String (JValue × List Char)
  | 0, _, _ => .error ("Nesting exhausted the parser fuel")
  | fuel+1, l, acc =>
    match skipWs l with
    | [] => .error ("Expecting , delimiter")
    | c :: cs =>
      if c.toNat == 125 then .ok (.jobj acc, cs)
      else if c.toNat == 44 then
        match skipWs cs with
        | [] => .error ("Expecting property name enclosed in double quotes")
        | d :: ds =>
          if d.toNat == 34 then
            match parseStringBody ds with
            | .ok (kchars, r1) =>
              match skipWs r1 with
              | [] => .error ("Expecting : delimiter")
              | e :: es =>
                if e.toNat == 58 then
                  match parseVal fuel (skipWs es) with
                  | .ok (v, r2) =>
                    parseMembers fuel r2 (acc.insert (String.mk kchars) v)
                  | .error msg => .error msg
                else .error ("Expecting : delimiter")
            | .error msg => .error msg
          else .error ("Expecting property name enclosed in double quotes")
      else .error ("Expecting , delimiter")
end

/-- Model of json.loads: skip leading whitespace, parse one value, skip
trailing whitespace, reject remaining input as extra data. -/
def loads (s : String) : Except String JValue :=
  match parseVal (s.toList.length + 1) (skipWs s.toList) with
  | .ok (v, r) => if (skipWs r).isEmpty then .ok v else .error ("Extra data")
  | .error msg => .error msg

/-! ## Timestamps and the persisted record -/

/-- Calendar timestamp, standing for a value returned by
datetime.now(). -/
structure DateTime where
  year : Nat
  month : Nat
  day : Nat
  hour : Nat
  minute : Nat
  second : Nat
  usec : Nat
  deriving DecidableEq

/-- Left-pad the decimal digits of n with zeros to width w. -/
def padDigits (w n : Nat) : List Char :=
  List.replicate (w - (natDigits n).length) '0' ++ natDigits n

/-- Model of now.strftime("%Y%m%d_%H%M%S"), each field zero-padded to its
conventional width. -/
def strftimeTs (t : DateTime) : String :=
  String.mk (padDigits 4 t.year ++ padDigits 2 t.month ++ padDigits 2 t.day ++
    '_' :: (padDigits 2 t.hour ++ padDigits 2 t.minute ++ padDigits 2 t.second))

/-- Model of now.isoformat(): YYYY-MM-DDTHH:MM:SS, followed by .ffffff
when the microsecond field is nonzero. -/
def isoformat (t : DateTime) : String :=
  String.mk (padDigits 4 t.year ++ '-' :: padDigits 2 t.month ++
    '-' :: padDigits 2 t.day ++ 'T' :: padDigits 2 t.hour ++
    ':' :: padDigits 2 t.minute ++ ':' :: padDigits 2 t.second ++
    (if t.usec == 0 then [] else '.' :: padDigits 6 t.usec))

/-- The payload dict built by save_record (identical in both files):
keys app, created_at, topic, explanation, char_count, result in this
insertion order, with char_count = count_chars(explanation). -/
def recordPayload (created : DateTime) (topic explanation : String)
    (result : JValue) : JValue :=
  .jobj (.cons ("app") (.jstr APP_NAME)
    (.cons ("created_at") (.jstr (isoformat created))
      (.cons ("topic") (.jstr topic)
        (.cons ("explanation") (.jstr explanation)
          (.cons ("char_count") (.jint (count_chars explanation))
            (.cons ("result") result .nil))))))

/-- File name written by save_record:
f"{now.strftime(\x22%Y%m%d_%H%M%S\x22)}_{safe_filename(topic)}.json". -/
def recordFileName (tsNow : DateTime) (topic : String) : String :=
  strftimeTs tsNow ++ "_" ++ safe_filename topic ++ ".json"

/-- Embedding of save_record (identical in both files).  The two
datetime.now() calls the function makes are passed explicitly: tsNow
feeds the file-name timestamp, createdNow feeds created_at.  The result
is the (file name, file contents) pair the function writes under
OUTPUT_DIR; the Python function returns the corresponding path
outputs/<file name>. -/
def save_record (tsNow createdNow : DateTime) (topic explanation : String)
    (result : JValue) : String × String :=
  (recordFileName tsNow topic,
   dumps (recordPayload createdNow topic explanation result))

/-- Path of a file of the outputs directory, as str(OUTPUT_DIR / name)
renders it. -/
def pathOf (name : String) : String := "outputs/" ++ name

/-! ## The diagnosis client and the two front ends -/

/-- Python exceptions that cross the evaluate boundary: an exception
raised by the OpenAI transport (the ServiceError of the specification,
carrying its cause), the RuntimeError raised by app.evaluate on a reply
that is not JSON, and json.JSONDecodeError (the ParseError of the
specification), which carries the decode failure reason and, in its doc
attribute, the raw offending document. -/
inductive PyExc where
  | serviceExc (cause : String)
  | runtimeError (msg : String)
  | jsonDecodeError (reason : String) (doc : String)
  deriving DecidableEq

/-- Rendering str(e) of an exception, as used in the f-strings of the
error handlers. -/
def pyExcStr : PyExc → String
  | .serviceExc cause => cause
  | .runtimeError msg => msg
  | .jsonDecodeError reason _ => reason

/-- Message of the RuntimeError raised by app.evaluate:
f"AI応答がJSON形式ではありません: {e}\n---\n{content}".  It contains the
decode failure reason and the raw offending text. -/
def parseFailMsg (reason content : String) : String :=
  "AI応答がJSON形式ではありません: " ++ reason ++ "\n---\n" ++ content

namespace App

/-- Embedding of evaluate from app.py.  The chat-completion round trip is
the explicit reply parameter: Except.error cause models the transport
raising an exception, Except.ok content carries the textual content of
the single reply choice.  Content that json.loads rejects raises
RuntimeError(parseFailMsg reason content). -/
def evaluate (reply : Except String String) : Except PyExc JValue :=
  match reply with
  | .error cause => .error (.serviceExc cause)
  | .ok content =>
    match loads content with
    | .ok data => .ok data
    | .error e => .error (.runtimeError (parseFailMsg e content))

/-- Tail of main from app.py after the two input prompts (topic is the
already stripped value read from the prompt): validation, then the try
block running evaluate, print_result and save_record; any exception of
the block is caught and printed as 実行エラー.  The outputs directory is
threaded through as a list of (file name, contents) pairs; the returned
String is the final message printed. -/
def runDiagnosis (store : List (String × String)) (tsNow createdNow : DateTime)
    (topic explanation : String) (reply : Except String String) :
    String × List (String × String) :=
  match validate_input topic explanation with
  | (false, msg) => ("入力エラー: " ++ msg, store)
  | (true, _) =>
    match evaluate reply with
    | .ok result =>
      let saved := save_record tsNow createdNow topic explanation result
      ("保存先: " ++ pathOf saved.1, store ++ [saved])
    | .error e => ("実行エラー: " ++ pyExcStr e, store)

end App

namespace Web

/-- Embedding of evaluate from web_app.py: it returns
json.loads(content) directly, so a malformed reply raises
json.JSONDecodeError, whose reason and raw document travel in the
exception value. -/
def evaluate (reply : Except String String) : Except PyExc JValue :=
  match reply with
  | .error cause => .error (.serviceExc cause)
  | .ok content =>
    match loads content with
    | .ok data => .ok data
    | .error e => .error (.jsonDecodeError e content)

/-- Error banner shown by the handler when json.JSONDecodeError is
caught. -/
def jsonFailBanner : String := "AI応答の解析に失敗しました。もう一度実行してください。"

/-- Embedding of the 診断する button handler of web_app.py: validation
(st.warning on failure), then the try block running evaluate,
render_diagnosis_result and save_record; json.JSONDecodeError is caught
and shown as a fixed banner, any other exception as エラーが発生しました.
The returned String is the message the UI shows. -/
def runDiagnosis (store : List (String × String)) (apiKey : Bool)
    (tsNow createdNow : DateTime) (topic explanation : String)
    (reply : Except String String) : String × List (String × String) :=
  match validate_input apiKey topic explanation with
  | (false, msg) => (msg, store)
  | (true, _) =>
    match evaluate reply with
    | .ok result =>
      let saved := save_record tsNow createdNow topic explanation result
      ("結果を保存しました: " ++ pathOf saved.1, store ++ [saved])
    | .error (.jsonDecodeError _ _) => (jsonFailBanner, store)
    | .error e => ("エラーが発生しました: " ++ pyExcStr e, store)

end Web

/-! ## The history reader -/

/-- Strict lexicographic comparison of character lists by Unicode code
point: the order Python uses to compare strings, and hence Path values on
POSIX. -/
def strLtB : List Char → List Char → Bool
  | [], [] => false
  | [], _ :: _ => true
  | _ :: _, [] => false
  | a :: as, b :: bs =>
    if a.toNat < b.toNat then true
    else if b.toNat < a.toNat then false
    else strLtB as bs

def nameLe (a b : String) : Bool := ! strLtB b.toList a.toList

/-- Test for the *.json pattern of OUTPUT_DIR.glob("*.json"): the name
ends in .json. -/
def isJsonName (s : String) : Bool :=
  s.toList.reverse.take 5 == ['n', 'o', 's', 'j', '.']

/-- The files load_history iterates over:
sorted(OUTPUT_DIR.glob("*.json"), reverse=True), a stable descending sort
by name.  sorted(..., reverse=True) keeps the original order of equal
elements, exactly as List.mergeSort with the flipped comparison does. -/
def sortedJsonFiles (store : List (String × String)) : List (String × String) :=
  (store.filter (fun e => isJsonName e.1)).mergeSort (fun a b => nameLe b.1 a.1)

/-- Processing of one history file by the loop body of load_history: parse
the contents with json.load and annotate the dict with the _file key.  A
file whose contents fail to parse, or whose parse is not a dict (so that
the assignment data["_file"] = str(p) raises TypeError), lands in the
bare except branch and yields nothing. -/
def parseHistoryEntry (e : String × String) : Option JValue :=
  match loads e.2 with
  | .ok (.jobj ms) => some (.jobj (ms.insert ("_file") (.jstr (pathOf e.1))))
  | _ => none

/-- Embedding of load_history from web_app.py.  The outputs directory is
the explicit store, a list of (file name, contents) pairs in arbitrary
directory order.  The second component of the result is the list of log
lines the function emits: the except branch of the source is a bare
continue, so the function logs nothing and that list is empty by
construction. -/
def load_history (store : List (String × String)) (limit : Nat) :
    List JValue × List String :=
  (((sortedJsonFiles store).take limit).filterMap parseHistoryEntry, [])

/-! ## Statement vocabulary used by the claim theorems -/

/-- Shape YYYYMMDD_HHMMSS: eight decimal digits, an underscore, six
decimal digits. -/
def matchesTsPattern (s : String) : Prop :=
  ∃ a b, s.toList = a ++ '_' :: b ∧ a.length = 8 ∧ b.length = 6 ∧
    (∀ c ∈ a, isDigitB c = true) ∧ (∀ c ∈ b, isDigitB c = true)

/-- Guard on the text following an emitted number: parsing must not
extend the numeral into it.  Holds for the empty rest and for any rest
beginning with a non-digit other than a dot or an exponent letter. -/
def numSafeB : List Char → Bool
  | [] => true
  | c :: _ => !(isDigitB c || c.toNat == 46 || c.toNat == 101 || c.toNat == 69)

/-- Per-chunk reversal of pyLowerList, used to transport facts about
dropWhile across list reversal in the strip/lower commutation proof. -/
def pyLowerRev : List Char → List Char
  | [] => []
  | c :: cs => (pyLowerChar c).reverse ++ pyLowerRev cs

mutual
/-- Fuel sufficient for parseVal to parse the serialized form of a value:
one unit per parser call that the emitted text triggers. -/
def jfuel : JValue → Nat
  | .jnull => 1
  | .jbool _ => 1
  | .jint _ => 1
  | .jstr _ => 1
  | .jarr .nil => 1
  | .jarr (.cons x xs) => 1 + jfuel x + jfuelItems xs
  | .jobj .nil => 1
  | .jobj (.cons _ v ms) => 1 + jfuel v + jfuelMembers ms

def jfuelItems : JItems → Nat
  | .nil => 1
  | .cons x xs => 1 + jfuel x + jfuelItems xs

def jfuelMembers : JMembers → Nat
  | .nil => 1
  | .cons _ v ms => 1 + jfuel v + jfuelMembers ms
end

/-- Sixty-character explanation used by concrete witnesses. -/
def sampleSixty : String := String.mk (List.replicate 60 'x')

/-- Sample timestamp used by concrete witnesses. -/
def sampleDT : DateTime := ⟨2026, 10, 12, 9, 30, 5, 0⟩

/-- Sample diagnosis result used by concrete witnesses. -/
def sampleResult : JValue :=
  .jobj (.cons ("score") (.jint 78)
    (.cons ("strengths") (.jarr (.cons (.jstr ("具体例がある")) .nil))
      (.cons ("tags") (.jarr (.cons (.jstr ("構成")) (.cons (.jstr ("用語")) .nil)))
        (.cons ("improve_tips") (.jarr (.cons (.jstr ("結論を先に")) .nil))
          (.cons ("improved_explanation") (.jstr ("TypeScriptのUnion型とは、複数の型"))
            (.cons ("explanation_30sec") (.jstr ("30秒版の説明")) .nil))))))

/-! # Lemma development and claim theorems -/

/-- The failure message for an under-length explanation decomposes around
the decimal renderings of the current count and of the deficit
MIN_CHARS - count: the message reports both. -/
theorem lengthFailMsg_reports (count : Nat) :
    ∃ pre mid post : String, lengthFailMsg count =
      pre ++ (natStr count ++ (mid ++ (natStr (MIN_CHARS - count) ++ post))) := by
  refine ⟨"説明文は" ++ natStr MIN_CHARS ++ "文字以上必要です（現在", "文字、あと",
    "文字）。\n" ++ "ヒント: 『〜とは』『なぜ使うか』『具体例』の3点を書くと到達しやすいです。", ?_⟩
  simp [lengthFailMsg, String.append_assoc]

/-- Claim C1 counterexample: in web_app.py, a call of validate_input with
a non-empty topic and a 60-character explanation returns failure (with
the configuration message), not success, whenever the OPENAI_API_KEY
environment variable is absent; so the claim that every such call
succeeds with an empty message is false on the code. -/
theorem C1_counterexample :
    ("t" : String) ≠ "" ∧ count_chars sampleSixty = 60 ∧
    Web.validate_input false ("t") sampleSixty = (false, apiKeyMsg) :=
  ⟨by decide, by decide, by decide⟩

/-- Claim C1 (amended): for every call of validate with a non-empty
topic, an explanation of fewer than 60 characters makes both variants
fail with the message reporting the current count and the exact deficit
60 - count; an explanation of at least 60 characters makes the terminal
variant succeed with an empty message, and the web variant succeed with
an empty message exactly when the service credential is configured
(otherwise it fails with the configuration message). -/
theorem validate_input_length_contract (topic explanation : String) (k : Bool)
    (ht : topic ≠ "") :
    (count_chars explanation < MIN_CHARS →
      App.validate_input topic explanation =
        (false, lengthFailMsg (count_chars explanation)) ∧
      Web.validate_input k topic explanation =
        (false, lengthFailMsg (count_chars explanation))) ∧
    (MIN_CHARS ≤ count_chars explanation →
      App.validate_input topic explanation = (true, "") ∧
      Web.validate_input k topic explanation =
        (if k then (true, "") else (false, apiKeyMsg))) := by
  constructor
  · intro h
    constructor
    · simp [App.validate_input, ht, h]
    · simp [Web.validate_input, ht, h]
  · intro h
    have h2 : ¬ (count_chars explanation < MIN_CHARS) := by omega
    constructor
    · simp [App.validate_input, ht, h2]
    · cases k <;> simp [Web.validate_input, ht, h2]

/-- Claim C1 witness: the amended contract applied at topic "t" with a
40-character explanation (deficit 20) and with a 60-character one. -/
theorem validate_input_length_contract_witness :
    App.validate_input ("t") (String.mk (List.replicate 40 'x')) =
      (false, lengthFailMsg 40) ∧
    App.validate_input ("t") sampleSixty = (true, "") :=
  ⟨((validate_input_length_contract ("t") (String.mk (List.replicate 40 'x')) true
      (by decide)).1 (by decide)).1,
   ((validate_input_length_contract ("t") sampleSixty true (by decide)).2
      (by decide)).1⟩

/-- Claim C2 counterexample: the whitespace-only topic " " is empty after
trimming, yet both validate_input variants accept it when the explanation
is long enough — the code tests Python falsiness (emptiness) of the
untrimmed topic and never strips it. -/
theorem C2_counterexample :
    pyStrip (" " : String).toList = [] ∧
    App.validate_input (" ") sampleSixty = (true, "") ∧
    Web.validate_input true (" ") sampleSixty = (true, "") :=
  ⟨by decide, by decide, by decide⟩

/-- Claim C2 (amended): for every topic equal to the empty string, both
validate_input variants fail with the message naming the topic
requirement and giving an example of a valid topic, regardless of the
explanation; whitespace-only topics are not trimmed by validate and pass
its topic check. -/
theorem validate_input_empty_topic (explanation : String) (k : Bool) :
    App.validate_input ("") explanation = (false, topicRequiredMsg) ∧
    Web.validate_input k ("") explanation = (false, topicRequiredMsg) := by
  constructor <;> simp [App.validate_input, Web.validate_input]

theorem dropWhile_append_of_all {α} {p : α → Bool} {l r : List α}
    (h : ∀ c ∈ l, p c = true) : (l ++ r).dropWhile p = r.dropWhile p := by
  induction l with
  | nil => rfl
  | cons c cs ih =>
    rw [List.cons_append, List.dropWhile_cons_of_pos (h c (by simp))]
    exact ih (fun x hx => h x (by simp [hx]))

theorem dropWhile_eq_self_of_all {α} {p : α → Bool} {l : List α}
    (h : ∀ c ∈ l, p c = false) : l.dropWhile p = l := by
  cases l with
  | nil => rfl
  | cons c cs => exact List.dropWhile_cons_of_neg (by simp [h c (by simp)])

theorem pyIsSpace_codes {c : Char} (h : pyIsSpace c = true) :
    c.toNat = 32 ∨ (9 ≤ c.toNat ∧ c.toNat ≤ 13) ∨ (28 ≤ c.toNat ∧ c.toNat ≤ 31) ∨
    c.toNat = 133 ∨ c.toNat = 160 ∨ c.toNat = 5760 ∨
    (8192 ≤ c.toNat ∧ c.toNat ≤ 8202) ∨ c.toNat = 8232 ∨ c.toNat = 8233 ∨
    c.toNat = 8239 ∨ c.toNat = 8287 ∨ c.toNat = 12288 := by
  simp [pyIsSpace, pyWhitespace] at h
  rcases h with h|h|h|h|h|h|h|h|h|h|h|h|h|h|h|h|h|h|h|h|h|h|h|h|h|h|h|h|h <;>
    subst h <;> decide

theorem not_space_of_code {c : Char} (h1 : 33 ≤ c.toNat) (h2 : c.toNat ≤ 126) :
    pyIsSpace c = false := by
  by_contra hne
  have h := pyIsSpace_codes (by simpa using hne)
  omega

theorem safe_code {c : Char} (h : isSafeChar c = true) :
    (97 ≤ c.toNat ∧ c.toNat ≤ 122) ∨ (48 ≤ c.toNat ∧ c.toNat ≤ 57) ∨
    c.toNat = 95 ∨ c.toNat = 45 := by
  simp only [isSafeChar, Bool.or_eq_true, Bool.and_eq_true, decide_eq_true_eq,
    beq_iff_eq] at h
  tauto

theorem not_space_of_safe {c : Char} (h : isSafeChar c = true) : pyIsSpace c = false := by
  have := safe_code h
  exact not_space_of_code (by omega) (by omega)

theorem charOfNat_toNat {n : Nat} (h : n < 55296) : (Char.ofNat n).toNat = n := by
  have hv : n.isValidChar := Or.inl h
  simp [Char.ofNat, hv, Char.toNat, Char.ofNatAux]
  rfl

theorem pyLowerChar_safe {c : Char} (h : isSafeChar c = true) : pyLowerChar c = [c] := by
  have hc := safe_code h
  unfold pyLowerChar
  split_ifs with h1 h2 h3
  · simp only [Bool.and_eq_true, decide_eq_true_eq] at h1; omega
  · simp only [beq_iff_eq] at h2; omega
  · simp only [beq_iff_eq] at h3; omega
  · rfl

theorem pyLowerChar_space {c : Char} (h : pyIsSpace c = true) : pyLowerChar c = [c] := by
  have hc := pyIsSpace_codes h
  unfold pyLowerChar
  split_ifs with h1 h2 h3
  · simp only [Bool.and_eq_true, decide_eq_true_eq] at h1; omega
  · simp only [beq_iff_eq] at h2; omega
  · simp only [beq_iff_eq] at h3; omega
  · rfl

theorem pyLowerChar_not_space {c : Char} (h : pyIsSpace c = false) :
    pyLowerChar c ≠ [] ∧ ∀ d ∈ pyLowerChar c, pyIsSpace d = false := by
  unfold pyLowerChar
  split_ifs with h1 h2 h3
  · simp only [Bool.and_eq_true, decide_eq_true_eq] at h1
    have ht : (Char.ofNat (c.toNat + 32)).toNat = c.toNat + 32 :=
      charOfNat_toNat (by omega)
    refine ⟨by simp, ?_⟩
    intro d hd
    simp only [List.mem_singleton] at hd
    subst hd
    exact not_space_of_code (by omega) (by omega)
  · refine ⟨by simp, ?_⟩
    intro d hd
    simp only [List.mem_cons, List.not_mem_nil, or_false] at hd
    rcases hd with rfl | rfl <;> decide
  · refine ⟨by simp, ?_⟩
    intro d hd
    simp only [List.mem_singleton] at hd
    subst hd
    decide
  · exact ⟨by simp, fun d hd => by simp at hd; subst hd; exact h⟩

theorem pyLowerList_cons (c : Char) (cs : List Char) :
    pyLowerList (c :: cs) = pyLowerChar c ++ pyLowerList cs := rfl

theorem pyLowerList_append (a b : List Char) :
    pyLowerList (a ++ b) = pyLowerList a ++ pyLowerList b := by
  induction a with
  | nil => rfl
  | cons c cs ih => simp [pyLowerList_cons, ih]

theorem pyLowerRev_cons (c : Char) (cs : List Char) :
    pyLowerRev (c :: cs) = (pyLowerChar c).reverse ++ pyLowerRev cs := rfl

theorem pyLowerRev_append (a b : List Char) :
    pyLowerRev (a ++ b) = pyLowerRev a ++ pyLowerRev b := by
  induction a with
  | nil => rfl
  | cons c cs ih => simp [pyLowerRev_cons, ih]

theorem dropWhile_space_lower (l : List Char) :
    (pyLowerList l).dropWhile pyIsSpace = pyLowerList (l.dropWhile pyIsSpace) := by
  induction l with
  | nil => rfl
  | cons c cs ih =>
    by_cases hsp : pyIsSpace c = true
    · rw [pyLowerList_cons, pyLowerChar_space hsp, List.singleton_append,
        List.dropWhile_cons_of_pos hsp, List.dropWhile_cons_of_pos hsp, ih]
    · have hsp2 : pyIsSpace c = false := by simpa using hsp
      obtain ⟨hne, hall⟩ := pyLowerChar_not_space hsp2
      cases hL : pyLowerChar c with
      | nil => exact absurd hL hne
      | cons d ds =>
        have hd : pyIsSpace d = false := hall d (by rw [hL]; simp)
        rw [pyLowerList_cons, hL, List.cons_append,
          List.dropWhile_cons_of_neg (by simp [hd]),
          List.dropWhile_cons_of_neg (by simp [hsp2]),
          pyLowerList_cons, hL, List.cons_append]

theorem reverse_pyLowerList (l : List Char) :
    (pyLowerList l).reverse = pyLowerRev l.reverse := by
  induction l with
  | nil => rfl
  | cons c cs ih =>
    rw [pyLowerList_cons, List.reverse_append, ih,
      show (c :: cs).reverse = cs.reverse ++ [c] from by simp,
      pyLowerRev_append]
    simp [pyLowerRev_cons, pyLowerRev]

theorem dropWhile_space_lowerRev (l : List Char) :
    (pyLowerRev l).dropWhile pyIsSpace = pyLowerRev (l.dropWhile pyIsSpace) := by
  induction l with
  | nil => rfl
  | cons c cs ih =>
    by_cases hsp : pyIsSpace c = true
    · rw [pyLowerRev_cons, pyLowerChar_space hsp, List.reverse_singleton,
        List.singleton_append, List.dropWhile_cons_of_pos hsp,
        List.dropWhile_cons_of_pos hsp, ih]
    · have hsp2 : pyIsSpace c = false := by simpa using hsp
      obtain ⟨hne, hall⟩ := pyLowerChar_not_space hsp2
      cases hL : (pyLowerChar c).reverse with
      | nil =>
        have : pyLowerChar c = [] := by simpa using congrArg List.reverse hL
        exact absurd this hne
      | cons d ds =>
        have hd : pyIsSpace d = false := by
          apply hall
          have hmem : d ∈ (pyLowerChar c).reverse := by rw [hL]; simp
          simpa using hmem
        rw [pyLowerRev_cons, hL, List.cons_append,
          List.dropWhile_cons_of_neg (by simp [hd]),
          List.dropWhile_cons_of_neg (by simp [hsp2]),
          pyLowerRev_cons, hL, List.cons_append]

theorem reverse_pyLowerRev (m : List Char) :
    (pyLowerRev m).reverse = pyLowerList m.reverse := by
  have h2 := reverse_pyLowerList m.reverse
  rw [List.reverse_reverse] at h2
  rw [← h2, List.reverse_reverse]

theorem pyStrip_lower (l : List Char) :
    pyStrip (pyLowerList l) = pyLowerList (pyStrip l) := by
  unfold pyStrip
  rw [dropWhile_space_lower, reverse_pyLowerList, dropWhile_space_lowerRev,
    reverse_pyLowerRev]

theorem safeSlugSpec_eq (x : String) : safeSlugSpec x = safe_filename x := by
  unfold safeSlugSpec safe_filename
  rw [pyStrip_lower]



theorem subUnsafeAux_eq_self {l : List Char} (h : ∀ c ∈ l, isSafeChar c = true) :
    ∀ b, subUnsafeAux b l = l := by
  induction l with
  | nil => intro b; rfl
  | cons c cs ih =>
    intro b
    unfold subUnsafeAux
    rw [if_pos (h c (by simp))]
    rw [ih (fun x hx => h x (by simp [hx]))]

theorem subUnsafeAux_chars {l : List Char} {b : Bool} {d : Char}
    (hd : d ∈ subUnsafeAux b l) : isSafeChar d = true := by
  induction l generalizing b with
  | nil => simp [subUnsafeAux] at hd
  | cons c cs ih =>
    unfold subUnsafeAux at hd
    by_cases hc : isSafeChar c = true
    · rw [if_pos hc] at hd
      rcases List.mem_cons.mp hd with rfl | hmem
      · exact hc
      · exact ih hmem
    · rw [if_neg hc] at hd
      by_cases hb : b = true
      · rw [hb, if_pos rfl] at hd
        exact ih hd
      · have hb2 : b = false := by simpa using hb
        rw [hb2] at hd
        simp only [Bool.false_eq_true, if_false] at hd
        rcases List.mem_cons.mp hd with rfl | hmem
        · decide
        · exact ih hmem

theorem subUnsafeAux_true_of_all_nonsafe {l : List Char}
    (h : ∀ c ∈ l, isSafeChar c = false) : subUnsafeAux true l = [] := by
  induction l with
  | nil => rfl
  | cons c cs ih =>
    unfold subUnsafeAux
    rw [if_neg (by simp [h c (by simp)]), if_pos rfl]
    exact ih (fun x hx => h x (by simp [hx]))

theorem subUnsafe_of_all_nonsafe {l : List Char}
    (h : ∀ c ∈ l, isSafeChar c = false) :
    subUnsafe l = [] ∨ subUnsafe l = ['_'] := by
  cases l with
  | nil => left; rfl
  | cons c cs =>
    right
    unfold subUnsafe subUnsafeAux
    rw [if_neg (by simp [h c (by simp)])]
    simp only [Bool.false_eq_true, if_false]
    rw [subUnsafeAux_true_of_all_nonsafe (fun x hx => h x (by simp [hx]))]

theorem mem_dropTrailingUs {l : List Char} {d : Char}
    (hd : d ∈ dropTrailingUs l) : d ∈ l := by
  induction l with
  | nil => simp [dropTrailingUs] at hd
  | cons c cs ih =>
    unfold dropTrailingUs at hd
    by_cases hr : (dropTrailingUs cs).isEmpty = true
    · rw [if_pos hr] at hd
      by_cases hc : (c == '_') = true
      · rw [if_pos hc] at hd; simp at hd
      · rw [if_neg hc] at hd
        simp only [List.mem_singleton] at hd
        simp [hd]
    · rw [if_neg hr] at hd
      rcases List.mem_cons.mp hd with rfl | hmem
      · simp
      · simp [ih hmem]

theorem dropTrailingUs_eq_self {l : List Char}
    (h : l.getLast? ≠ some '_') : dropTrailingUs l = l := by
  induction l with
  | nil => rfl
  | cons c cs ih =>
    cases cs with
    | nil =>
      have hc : c ≠ '_' := by
        intro he
        exact h (by simp [he])
      unfold dropTrailingUs
      simp [hc, dropTrailingUs]
    | cons c2 cs2 =>
      have h2 : (c2 :: cs2).getLast? ≠ some '_' := by
        rwa [List.getLast?_cons_cons] at h
      unfold dropTrailingUs
      rw [ih h2]
      simp

theorem getLast?_dropTrailingUs (l : List Char) :
    (dropTrailingUs l).getLast? ≠ some '_' := by
  induction l with
  | nil => simp [dropTrailingUs]
  | cons c cs ih =>
    unfold dropTrailingUs
    by_cases hr : (dropTrailingUs cs).isEmpty = true
    · rw [if_pos hr]
      by_cases hc : (c == '_') = true
      · rw [if_pos hc]; simp
      · rw [if_neg hc]
        simp only [List.getLast?_singleton, ne_eq, Option.some.injEq]
        intro he
        exact hc (by simp [he])
    · rw [if_neg hr]
      cases hd : dropTrailingUs cs with
      | nil => rw [hd] at hr; simp at hr
      | cons d ds =>
        rw [List.getLast?_cons_cons]
        rw [hd] at ih
        exact ih

theorem head?_dropTrailingUs {c : Char} {cs : List Char}
    (hne : dropTrailingUs (c :: cs) ≠ []) :
    (dropTrailingUs (c :: cs)).head? = some c := by
  unfold dropTrailingUs at hne ⊢
  by_cases hr : (dropTrailingUs cs).isEmpty = true
  · rw [if_pos hr] at hne ⊢
    by_cases hc : (c == '_') = true
    · rw [if_pos hc] at hne; simp at hne
    · rw [if_neg hc]; rfl
  · rw [if_neg hr]; rfl

theorem head?_dropWhile_us (l : List Char) {c : Char}
    (h : (l.dropWhile (fun x => x == '_')).head? = some c) : c ≠ '_' := by
  induction l with
  | nil => simp [List.dropWhile] at h
  | cons d ds ih =>
    by_cases hd : (d == '_') = true
    · have hx : (d :: ds).dropWhile (fun x => x == '_') =
          ds.dropWhile (fun x => x == '_') := List.dropWhile_cons_of_pos hd
      rw [hx] at h
      exact ih h
    · have hx : (d :: ds).dropWhile (fun x => x == '_') = d :: ds :=
        List.dropWhile_cons_of_neg (by simpa using hd)
      rw [hx] at h
      simp only [List.head?_cons, Option.some.injEq] at h
      subst h
      intro he
      exact hd (by simp [he])

theorem mem_stripUnderscores {l : List Char} {d : Char}
    (hd : d ∈ stripUnderscores l) : d ∈ l := by
  unfold stripUnderscores at hd
  exact List.dropWhile_subset _ (mem_dropTrailingUs hd)

theorem stripUnderscores_eq_self {l : List Char}
    (h1 : l.head? ≠ some '_') (h2 : l.getLast? ≠ some '_') :
    stripUnderscores l = l := by
  unfold stripUnderscores
  cases l with
  | nil => rfl
  | cons c cs =>
    have hc : ¬ ((c == '_') = true) := by
      intro he
      exact h1 (by simp [beq_iff_eq.mp he])
    have hx : (c :: cs).dropWhile (fun x => x == '_') = c :: cs :=
      List.dropWhile_cons_of_neg hc
    rw [hx]
    exact dropTrailingUs_eq_self h2

theorem getLast?_stripUnderscores (l : List Char) :
    (stripUnderscores l).getLast? ≠ some '_' := getLast?_dropTrailingUs _

theorem head?_stripUnderscores {l : List Char} {c : Char}
    (h : (stripUnderscores l).head? = some c) : c ≠ '_' := by
  unfold stripUnderscores at h
  cases hd : l.dropWhile (fun x => x == '_') with
  | nil => rw [hd] at h; simp [dropTrailingUs] at h
  | cons d ds =>
    rw [hd] at h
    have hne : dropTrailingUs (d :: ds) ≠ [] := by
      intro he
      rw [he] at h
      simp at h
    rw [head?_dropTrailingUs hne] at h
    have hcd : d = c := by simpa using h
    subst hcd
    have harg : (l.dropWhile (fun x => x == '_')).head? = some d := by
      simp [hd]
    exact head?_dropWhile_us l harg



theorem pyStrip_eq_self_of_all {l : List Char} (h : ∀ c ∈ l, pyIsSpace c = false) :
    pyStrip l = l := by
  unfold pyStrip
  rw [dropWhile_eq_self_of_all h]
  rw [dropWhile_eq_self_of_all (fun c hc => h c (by simpa using hc))]
  simp

theorem mem_pyStrip {l : List Char} {c : Char} (hc : c ∈ pyStrip l) : c ∈ l := by
  unfold pyStrip at hc
  have h1 : c ∈ (l.dropWhile pyIsSpace).reverse.dropWhile pyIsSpace := by
    simpa using hc
  have h2 := List.dropWhile_subset _ h1
  exact List.dropWhile_subset _ (by simpa using h2)

theorem pyLowerList_eq_self_of_safe {l : List Char} (h : ∀ c ∈ l, isSafeChar c = true) :
    pyLowerList l = l := by
  induction l with
  | nil => rfl
  | cons c cs ih =>
    rw [pyLowerList_cons, pyLowerChar_safe (h c (by simp)), List.singleton_append,
      ih (fun x hx => h x (by simp [hx]))]

theorem pyLowerChar_id {c : Char} (hA : ¬ (65 ≤ c.toNat ∧ c.toNat ≤ 90))
    (h3 : c.toNat ≠ 304) (h4 : c.toNat ≠ 8490) : pyLowerChar c = [c] := by
  unfold pyLowerChar
  split_ifs with h1 h2 h5
  · simp only [Bool.and_eq_true, decide_eq_true_eq] at h1; omega
  · simp only [beq_iff_eq] at h2; omega
  · simp only [beq_iff_eq] at h5; omega
  · rfl

theorem pyLowerList_eq_self_of_id {l : List Char}
    (h : ∀ c ∈ l, pyLowerChar c = [c]) : pyLowerList l = l := by
  induction l with
  | nil => rfl
  | cons c cs ih =>
    rw [pyLowerList_cons, h c (by simp), List.singleton_append,
      ih (fun x hx => h x (by simp [hx]))]

theorem safe_filename_toList_cases (text : String) :
    (safe_filename text).toList = ("topic" : String).toList ∨
    ((safe_filename text).toList =
      (stripUnderscores (subUnsafe (pyLowerList (pyStrip text.toList)))).take 40 ∧
      (stripUnderscores (subUnsafe (pyLowerList (pyStrip text.toList)))).take 40 ≠ []) := by
  simp only [safe_filename]
  by_cases he :
      ((stripUnderscores (subUnsafe (pyLowerList (pyStrip text.toList)))).take 40).isEmpty = true
  · left; rw [if_pos he]
  · right
    rw [if_neg he]
    refine ⟨rfl, ?_⟩
    intro hnil
    rw [hnil] at he
    simp at he

theorem safe_filename_chars {text : String} {c : Char}
    (hc : c ∈ (safe_filename text).toList) : isSafeChar c = true := by
  rcases safe_filename_toList_cases text with h | ⟨h, _⟩
  · rw [h] at hc
    simp at hc
    rcases hc with rfl | rfl | rfl | rfl | rfl <;> decide
  · rw [h] at hc
    exact subUnsafeAux_chars (mem_stripUnderscores (List.take_subset _ _ hc))

theorem safe_filename_length (text : String) :
    (safe_filename text).toList.length ≤ 40 := by
  rcases safe_filename_toList_cases text with h | ⟨h, _⟩
  · rw [h]; decide
  · rw [h]; exact List.length_take_le _ _

theorem safe_filename_ne_nil (text : String) : (safe_filename text).toList ≠ [] := by
  rcases safe_filename_toList_cases text with h | ⟨h, hne⟩
  · rw [h]; decide
  · rw [h]; exact hne

theorem safe_filename_head {text : String} {c : Char}
    (h : (safe_filename text).toList.head? = some c) : c ≠ '_' := by
  rcases safe_filename_toList_cases text with h2 | ⟨h2, _⟩
  · rw [h2] at h
    simp at h
    subst h
    decide
  · rw [h2] at h
    cases hX : stripUnderscores (subUnsafe (pyLowerList (pyStrip text.toList))) with
    | nil => rw [hX] at h; simp at h
    | cons d ds =>
      rw [hX] at h
      simp only [List.take_succ_cons, List.head?_cons, Option.some.injEq] at h
      subst h
      exact head?_stripUnderscores (by rw [hX]; rfl)

/-- Claim C6 (amended): safeSlug is idempotent on every input whose slug
does not end in an underscore: safeSlug(safeSlug(x)) = safeSlug(x)
whenever safeSlug(x) has no trailing underscore.  (Truncation to 40
characters happens after underscore stripping and can expose a trailing
underscore; that is the only way idempotence fails.) -/
theorem safe_filename_fixed (text : String)
    (h : (safe_filename text).toList.getLast? ≠ some '_') :
    safe_filename (safe_filename text) = safe_filename text := by
  set s := safe_filename text with hs
  have hchars : ∀ c ∈ s.toList, isSafeChar c = true := fun c hc => safe_filename_chars hc
  have hnospace : ∀ c ∈ s.toList, pyIsSpace c = false :=
    fun c hc => not_space_of_safe (hchars c hc)
  have hhead : s.toList.head? ≠ some '_' := by
    cases hh : s.toList.head? with
    | none => simp
    | some d =>
      intro he
      have hde : d = '_' := by simpa using he
      exact (safe_filename_head hh) hde
  simp only [safe_filename]
  rw [pyStrip_eq_self_of_all hnospace]
  rw [pyLowerList_eq_self_of_safe hchars]
  unfold subUnsafe
  rw [subUnsafeAux_eq_self hchars false]
  rw [stripUnderscores_eq_self hhead h]
  rw [List.take_of_length_le (safe_filename_length text)]
  rw [if_neg (by simp only [List.isEmpty_iff]; exact safe_filename_ne_nil text)]
  rfl

theorem safe_filename_topic_of_nonsafe (s : String)
    (h1 : ∀ c ∈ s.toList, 128 ≤ c.toNat)
    (h2 : ∀ c ∈ s.toList, c.toNat ≠ 304 ∧ c.toNat ≠ 8490) :
    safe_filename s = ("topic") := by
  have hlower : pyLowerList (pyStrip s.toList) = pyStrip s.toList := by
    apply pyLowerList_eq_self_of_id
    intro c hc
    have hm := mem_pyStrip hc
    exact pyLowerChar_id (by have := h1 c hm; omega) (h2 c hm).1 (h2 c hm).2
  have hunsafe : ∀ c ∈ pyStrip s.toList, isSafeChar c = false := by
    intro c hc
    have h128 := h1 c (mem_pyStrip hc)
    rcases Bool.eq_false_or_eq_true (isSafeChar c) with hb | hb
    · have := safe_code hb
      omega
    · exact hb
  simp only [safe_filename]
  rw [hlower]
  rcases subUnsafe_of_all_nonsafe hunsafe with h0 | h0 <;> rw [h0] <;> rfl



/-- Claim C6 counterexample: safeSlug is not idempotent on every string.
For the 41-character input of 39 a, an underscore and b, the slug is 39 a
followed by an underscore (the truncation to 40 exposes a trailing
underscore that was interior before), and a second application strips
that underscore, giving a different string. -/
theorem C6_counterexample :
    safe_filename (safe_filename (String.mk (List.replicate 39 'a' ++ ['_', 'b']))) ≠
      safe_filename (String.mk (List.replicate 39 'a' ++ ['_', 'b'])) := by decide

/-- Claim C6 witness: the idempotence theorem applied to the concrete
topic GitHubについて, whose slug github has no trailing underscore. -/
theorem safe_filename_fixed_witness :
    safe_filename (safe_filename ("GitHubについて")) = safe_filename ("GitHubについて") :=
  safe_filename_fixed ("GitHubについて") (by decide)

/-- Claim C7 counterexample: the one-character input U+212A KELVIN SIGN
is all-non-ASCII, yet its slug is "k", not "topic": Python str.lower()
maps U+212A to the ASCII letter k (its Unicode lowercase mapping), which
the substitution step keeps. -/
theorem C7_counterexample :
    safe_filename ("\u212A") = ("k") ∧ ("\u212A" : String) ≠ "" ∧
    (∀ c ∈ ("\u212A" : String).toList, 128 ≤ c.toNat) := ⟨by decide, by decide, by decide⟩

/-- Claim C7 (amended): the slug is computed by exactly the stated steps
(lowercase, strip whitespace, collapse runs outside [a-z0-9_-] to one
underscore, strip underscores, truncate to 40, fall back to "topic" when
empty) — lowercasing and whitespace stripping commute, so the spec's
order equals the code's; safeSlug("GitHubについて") is a non-empty string
of characters in [a-z0-9_-]; safeSlug("") = "topic"; and every
all-non-ASCII input none of whose characters is U+0130 or U+212A (the
characters whose Unicode lowercase contains an ASCII letter) yields
exactly "topic". -/
theorem safe_filename_steps :
    (∀ x, safeSlugSpec x = safe_filename x) ∧
    (safe_filename ("GitHubについて") ≠ "" ∧
      ∀ c ∈ (safe_filename ("GitHubについて")).toList, isSafeChar c = true) ∧
    safe_filename ("") = ("topic") ∧
    (∀ s : String, (∀ c ∈ s.toList, 128 ≤ c.toNat) →
      (∀ c ∈ s.toList, c.toNat ≠ 304 ∧ c.toNat ≠ 8490) →
      safe_filename s = ("topic")) :=
  ⟨safeSlugSpec_eq, ⟨by decide, by decide⟩, by decide, safe_filename_topic_of_nonsafe⟩

/-- Claim C7 witness: the all-non-ASCII rule of the amended claim applied
to the concrete input について. -/
theorem safe_filename_steps_witness :
    safe_filename ("について") = ("topic") :=
  safe_filename_steps.2.2.2 ("について") (by decide) (by decide)

end ProofByOutput

namespace ProofByOutput

theorem natDigitsAux_succ (fuel n : Nat) (acc : List Char) :
    natDigitsAux (fuel+1) n acc =
      if n < 10 then digitChar n :: acc
      else natDigitsAux fuel (n / 10) (digitChar (n % 10) :: acc) := rfl

theorem natDigits_unfold (n : Nat) :
    natDigits n =
      if n < 10 then [digitChar n]
      else natDigitsAux n (n / 10) [digitChar (n % 10)] := natDigitsAux_succ n n []

theorem natDigitsAux_eq (n : Nat) : ∀ fuel acc, n < fuel →
    natDigitsAux fuel n acc = natDigits n ++ acc := by
  induction n using Nat.strong_induction_on with
  | _ n ih =>
    intro fuel acc hlt
    cases fuel with
    | zero => omega
    | succ m =>
      by_cases h10 : n < 10
      · rw [natDigitsAux_succ, if_pos h10, natDigits_unfold, if_pos h10]
        rfl
      · have hdivlt : n / 10 < n := Nat.div_lt_self (by omega) (by omega)
        rw [natDigitsAux_succ, if_neg h10, natDigits_unfold, if_neg h10]
        rw [ih (n / 10) hdivlt m (digitChar (n % 10) :: acc) (by omega)]
        rw [ih (n / 10) hdivlt n [digitChar (n % 10)] (by omega)]
        simp

theorem natDigits_lt {n : Nat} (h : n < 10) : natDigits n = [digitChar n] := by
  rw [natDigits_unfold, if_pos h]

theorem natDigits_ge {n : Nat} (h : 10 ≤ n) :
    natDigits n = natDigits (n / 10) ++ [digitChar (n % 10)] := by
  rw [natDigits_unfold, if_neg (by omega)]
  exact natDigitsAux_eq (n / 10) n [digitChar (n % 10)]
    (Nat.lt_of_lt_of_le (Nat.div_lt_self (by omega) (by omega)) (by omega))

theorem digitChar_toNat {n : Nat} (h : n < 10) : (digitChar n).toNat = 48 + n := by
  unfold digitChar
  exact charOfNat_toNat (by omega)

theorem natDigits_ne_nil (n : Nat) : natDigits n ≠ [] := by
  induction n using Nat.strong_induction_on with
  | _ n ih =>
    by_cases h10 : n < 10
    · rw [natDigits_lt h10]; simp
    · rw [natDigits_ge (by omega)]; simp

theorem natDigits_all_digits (n : Nat) : ∀ c ∈ natDigits n, isDigitB c = true := by
  induction n using Nat.strong_induction_on with
  | _ n ih =>
    intro c hc
    by_cases h10 : n < 10
    · rw [natDigits_lt h10] at hc
      simp only [List.mem_singleton] at hc
      subst hc
      simp only [isDigitB, Bool.and_eq_true, decide_eq_true_eq]
      rw [digitChar_toNat h10]
      omega
    · rw [natDigits_ge (by omega)] at hc
      rcases List.mem_append.mp hc with hm | hm
      · exact ih (n / 10) (Nat.div_lt_self (by omega) (by omega)) c hm
      · simp only [List.mem_singleton] at hm
        subst hm
        simp only [isDigitB, Bool.and_eq_true, decide_eq_true_eq]
        rw [digitChar_toNat (Nat.mod_lt _ (by omega))]
        omega

theorem digitsVal_append (a b : List Char) :
    digitsVal (a ++ b) = b.foldl (fun x c => 10 * x + (c.toNat - 48)) (digitsVal a) := by
  unfold digitsVal
  exact List.foldl_append ..

theorem digitsVal_natDigits (n : Nat) : digitsVal (natDigits n) = n := by
  induction n using Nat.strong_induction_on with
  | _ n ih =>
    by_cases h10 : n < 10
    · rw [natDigits_lt h10]
      unfold digitsVal
      simp [digitChar_toNat h10]
    · rw [natDigits_ge (by omega), digitsVal_append,
        ih (n / 10) (Nat.div_lt_self (by omega) (by omega))]
      simp only [List.foldl_cons, List.foldl_nil]
      rw [digitChar_toNat (Nat.mod_lt _ (by omega))]
      omega

theorem natDigits_head_pos {n : Nat} (hn : 1 ≤ n) {c : Char} {t : List Char}
    (h : natDigits n = c :: t) : c.toNat ≠ 48 := by
  induction n using Nat.strong_induction_on generalizing c t with
  | _ n ih =>
    by_cases h10 : n < 10
    · rw [natDigits_lt h10] at h
      have hc : digitChar n = c := (List.cons.inj h).1
      rw [← hc, digitChar_toNat h10]
      omega
    · rw [natDigits_ge (by omega)] at h
      cases hd : natDigits (n / 10) with
      | nil => exact absurd hd (natDigits_ne_nil _)
      | cons d ds =>
        rw [hd, List.cons_append] at h
        have hc : d = c := (List.cons.inj h).1
        subst hc
        have hq : 1 ≤ n / 10 := Nat.le_div_iff_mul_le (by omega) |>.mpr (by omega)
        exact ih (n / 10) (Nat.div_lt_self (by omega) (by omega)) hq hd

end ProofByOutput

namespace ProofByOutput

theorem takeWhile_append_all {α} {p : α → Bool} {l r : List α}
    (h : ∀ c ∈ l, p c = true) : (l ++ r).takeWhile p = l ++ r.takeWhile p := by
  induction l with
  | nil => rfl
  | cons c cs ih =>
    rw [List.cons_append, List.takeWhile_cons_of_pos (h c (by simp)),
      ih (fun x hx => h x (by simp [hx])), List.cons_append]

theorem numSafe_parts {c : Char} {t : List Char} (h : numSafeB (c :: t) = true) :
    isDigitB c = false ∧ c.toNat ≠ 46 ∧ c.toNat ≠ 101 ∧ c.toNat ≠ 69 := by
  unfold numSafeB at h
  simp only [Bool.not_eq_eq_eq_not, Bool.not_true, Bool.or_eq_false_iff,
    beq_eq_false_iff_ne, ne_eq] at h
  exact ⟨h.1.1.1, h.1.1.2, h.1.2, h.2⟩

theorem takeWhile_digits_numSafe {r : List Char} (h : numSafeB r = true) :
    r.takeWhile isDigitB = [] ∧ r.dropWhile isDigitB = r := by
  cases r with
  | nil => exact ⟨rfl, rfl⟩
  | cons c t =>
    have hp := numSafe_parts h
    exact ⟨List.takeWhile_cons_of_neg (by simp [hp.1]),
      List.dropWhile_cons_of_neg (by simp [hp.1])⟩

theorem checkNoFrac_of_numSafe (v : JValue) {r : List Char} (h : numSafeB r = true) :
    checkNoFrac v r = .ok (v, r) := by
  cases r with
  | nil => rfl
  | cons c t =>
    have hp := numSafe_parts h
    simp only [checkNoFrac]
    rw [if_neg (by simp [hp.2.1, hp.2.2.1, hp.2.2.2])]

theorem parseUIntPart_natDigits (n : Nat) {rest : List Char}
    (hr : numSafeB rest = true) :
    parseUIntPart (natDigits n ++ rest) = .ok (n, rest) := by
  obtain ⟨htake, hdrop⟩ := takeWhile_digits_numSafe hr
  by_cases h0 : n = 0
  · subst h0
    rw [natDigits_lt (by omega)]
    show parseUIntPart (digitChar 0 :: rest) = _
    simp only [parseUIntPart]
    rw [if_pos (by simp [digitChar_toNat])]
  · cases hnd : natDigits n with
    | nil => exact absurd hnd (natDigits_ne_nil n)
    | cons c ds =>
      have hcd : isDigitB c = true := natDigits_all_digits n c (by rw [hnd]; simp)
      have hc48 : c.toNat ≠ 48 := natDigits_head_pos (by omega) hnd
      have hdsd : ∀ d ∈ ds, isDigitB d = true := by
        intro d hd
        exact natDigits_all_digits n d (by rw [hnd]; simp [hd])
      rw [List.cons_append]
      simp only [parseUIntPart]
      rw [if_neg (by simp [hc48]), if_pos hcd]
      rw [takeWhile_append_all hdsd, htake, List.append_nil]
      rw [dropWhile_append_of_all hdsd, hdrop]
      rw [show c :: ds = natDigits n from hnd.symm, digitsVal_natDigits]

theorem parseNumber_intRepr (i : Int) {rest : List Char}
    (hr : numSafeB rest = true) :
    parseNumber (intRepr i ++ rest) = .ok (.jint i, rest) := by
  by_cases hneg : i < 0
  · rw [show intRepr i = '-' :: natDigits i.natAbs from by unfold intRepr; rw [if_pos hneg]]
    rw [List.cons_append]
    simp only [parseNumber]
    rw [if_pos (by simp)]
    rw [parseUIntPart_natDigits i.natAbs hr]
    show checkNoFrac (JValue.jint (-(i.natAbs : Int))) rest = Except.ok (JValue.jint i, rest)
    rw [show (-(i.natAbs : Int)) = i from by omega, checkNoFrac_of_numSafe _ hr]
  · rw [show intRepr i = natDigits i.natAbs from by unfold intRepr; rw [if_neg hneg]]
    cases hnd : natDigits i.natAbs with
    | nil => exact absurd hnd (natDigits_ne_nil _)
    | cons c ds =>
      have hcd : isDigitB c = true := natDigits_all_digits _ c (by rw [hnd]; simp)
      have hcn : c.toNat ≠ 45 := by
        simp only [isDigitB, Bool.and_eq_true, decide_eq_true_eq] at hcd
        omega
      rw [List.cons_append]
      simp only [parseNumber]
      rw [if_neg (by simp [hcn])]
      rw [show c :: (ds ++ rest) = (c :: ds) ++ rest from rfl, ← hnd]
      rw [parseUIntPart_natDigits i.natAbs hr]
      show checkNoFrac (JValue.jint (i.natAbs : Int)) rest = Except.ok (JValue.jint i, rest)
      rw [show ((i.natAbs : Int)) = i from by omega, checkNoFrac_of_numSafe _ hr]

end ProofByOutput

namespace ProofByOutput

theorem char_eq_of_toNat_eq {c d : Char} (h : c.toNat = d.toNat) : c = d := by
  rw [← Char.ofNat_toNat c, h, Char.ofNat_toNat]

theorem psb_quote (X : List Char) : parseStringBody ('"' :: X) = .ok ([], X) := by
  rw [parseStringBody.eq_def]
  simp

theorem psb_esc_u (h1 h2 h3 h4 : Char) (X : List Char) :
    parseStringBody ('\\' :: 'u' :: h1 :: h2 :: h3 :: h4 :: X) =
      (match hexVal h1, hexVal h2, hexVal h3, hexVal h4 with
       | some a, some b, some x, some y =>
         (match parseStringBody X with
          | .ok (s, r) =>
            .ok (Char.ofNat (((a * 16 + b) * 16 + x) * 16 + y) :: s, r)
          | .error msg => .error msg)
       | _, _, _, _ => .error ("Invalid \\uXXXX escape")) := by
  rw [parseStringBody.eq_def]
  simp only []
  rw [if_neg (by decide), if_pos (by decide), if_pos (by decide)]

theorem psb_esc2 {e d : Char} (he : escDecode e = some d) (hu : e.toNat ≠ 117)
    (X : List Char) :
    parseStringBody ('\\' :: e :: X) =
      (match parseStringBody X with
       | .ok (s, r) => .ok (d :: s, r)
       | .error msg => .error msg) := by
  rw [parseStringBody.eq_def]
  simp only []
  rw [if_neg (by decide), if_pos (by decide), if_neg (by simp [hu]), he]

theorem psb_lit {c : Char} (h34 : c.toNat ≠ 34) (h92 : c.toNat ≠ 92)
    (hctl : ¬ c.toNat < 32) (X : List Char) :
    parseStringBody (c :: X) =
      (match parseStringBody X with
       | .ok (s, r) => .ok (c :: s, r)
       | .error msg => .error msg) := by
  rw [parseStringBody.eq_def]
  simp only []
  rw [if_neg (by simp [h34]), if_neg (by simp [h92]), if_neg (by simpa using hctl)]

theorem hexVal_hexDigitChar {k : Nat} (h : k < 16) : hexVal (hexDigitChar k) = some k := by
  have hall : ∀ m < 16, hexVal (hexDigitChar m) = some m := by decide
  exact hall k h

theorem parseStringBody_enc (l : List Char) (rest : List Char) :
    parseStringBody (encChars l ++ '"' :: rest) = .ok (l, rest) := by
  induction l with
  | nil => exact psb_quote rest
  | cons c cs ih =>
    show parseStringBody ((escapeChar c ++ encChars cs) ++ '"' :: rest) = _
    rw [List.append_assoc]
    by_cases h34 : c.toNat = 34
    · rw [show escapeChar c = ['\\', '"'] from by
        unfold escapeChar; rw [if_pos (by simp [h34])]]
      rw [show (['\\', '"'] : List Char) ++ (encChars cs ++ '"' :: rest) =
        '\\' :: '"' :: (encChars cs ++ '"' :: rest) from rfl]
      rw [psb_esc2 (show escDecode '"' = some '"' from rfl) (by decide), ih]
      rw [show c = '"' from char_eq_of_toNat_eq (by rw [h34]; rfl)]
    · by_cases h92 : c.toNat = 92
      · rw [show escapeChar c = ['\\', '\\'] from by
          unfold escapeChar; rw [if_neg (by simp [h34]), if_pos (by simp [h92])]]
        rw [show (['\\', '\\'] : List Char) ++ (encChars cs ++ '"' :: rest) =
          '\\' :: '\\' :: (encChars cs ++ '"' :: rest) from rfl]
        rw [psb_esc2 (show escDecode '\\' = some '\\' from rfl) (by decide), ih]
        rw [show c = '\\' from char_eq_of_toNat_eq (by rw [h92]; rfl)]
      · by_cases h10 : c.toNat = 10
        · rw [show escapeChar c = ['\\', 'n'] from by
            unfold escapeChar
            rw [if_neg (by simp [h34]), if_neg (by simp [h92]), if_pos (by simp [h10])]]
          rw [show (['\\', 'n'] : List Char) ++ (encChars cs ++ '"' :: rest) =
            '\\' :: 'n' :: (encChars cs ++ '"' :: rest) from rfl]
          rw [psb_esc2 (show escDecode 'n' = some '\n' from rfl) (by decide), ih]
          rw [show c = '\n' from char_eq_of_toNat_eq (by rw [h10]; rfl)]
        · by_cases h13 : c.toNat = 13
          · rw [show escapeChar c = ['\\', 'r'] from by
              unfold escapeChar
              rw [if_neg (by simp [h34]), if_neg (by simp [h92]), if_neg (by simp [h10]),
                if_pos (by simp [h13])]]
            rw [show (['\\', 'r'] : List Char) ++ (encChars cs ++ '"' :: rest) =
              '\\' :: 'r' :: (encChars cs ++ '"' :: rest) from rfl]
            rw [psb_esc2 (show escDecode 'r' = some '\r' from rfl) (by decide), ih]
            rw [show c = '\r' from char_eq_of_toNat_eq (by rw [h13]; rfl)]
          · by_cases h9 : c.toNat = 9
            · rw [show escapeChar c = ['\\', 't'] from by
                unfold escapeChar
                rw [if_neg (by simp [h34]), if_neg (by simp [h92]), if_neg (by simp [h10]),
                  if_neg (by simp [h13]), if_pos (by simp [h9])]]
              rw [show (['\\', 't'] : List Char) ++ (encChars cs ++ '"' :: rest) =
                '\\' :: 't' :: (encChars cs ++ '"' :: rest) from rfl]
              rw [psb_esc2 (show escDecode 't' = some '\t' from rfl) (by decide), ih]
              rw [show c = '\t' from char_eq_of_toNat_eq (by rw [h9]; rfl)]
            · by_cases h8 : c.toNat = 8
              · rw [show escapeChar c = ['\\', 'b'] from by
                  unfold escapeChar
                  rw [if_neg (by simp [h34]), if_neg (by simp [h92]),
                    if_neg (by simp [h10]), if_neg (by simp [h13]),
                    if_neg (by simp [h9]), if_pos (by simp [h8])]]
                rw [show (['\\', 'b'] : List Char) ++ (encChars cs ++ '"' :: rest) =
                  '\\' :: 'b' :: (encChars cs ++ '"' :: rest) from rfl]
                rw [psb_esc2 (show escDecode 'b' = some '\x08' from rfl) (by decide), ih]
                rw [show c = '\x08' from char_eq_of_toNat_eq (by rw [h8]; rfl)]
              · by_cases h12 : c.toNat = 12
                · rw [show escapeChar c = ['\\', 'f'] from by
                    unfold escapeChar
                    rw [if_neg (by simp [h34]), if_neg (by simp [h92]),
                      if_neg (by simp [h10]), if_neg (by simp [h13]),
                      if_neg (by simp [h9]), if_neg (by simp [h8]),
                      if_pos (by simp [h12])]]
                  rw [show (['\\', 'f'] : List Char) ++ (encChars cs ++ '"' :: rest) =
                    '\\' :: 'f' :: (encChars cs ++ '"' :: rest) from rfl]
                  rw [psb_esc2 (show escDecode 'f' = some '\x0c' from rfl) (by decide), ih]
                  rw [show c = '\x0c' from char_eq_of_toNat_eq (by rw [h12]; rfl)]
                · by_cases hctl : c.toNat < 32
                  · rw [show escapeChar c = ['\\', 'u', '0', '0',
                        hexDigitChar (c.toNat / 16), hexDigitChar (c.toNat % 16)] from by
                      unfold escapeChar
                      rw [if_neg (by simp [h34]), if_neg (by simp [h92]),
                        if_neg (by simp [h10]), if_neg (by simp [h13]),
                        if_neg (by simp [h9]), if_neg (by simp [h8]),
                        if_neg (by simp [h12]), if_pos hctl]]
                    rw [show (['\\', 'u', '0', '0', hexDigitChar (c.toNat / 16),
                        hexDigitChar (c.toNat % 16)] : List Char) ++
                        (encChars cs ++ '"' :: rest) =
                      '\\' :: 'u' :: '0' :: '0' :: hexDigitChar (c.toNat / 16) ::
                        hexDigitChar (c.toNat % 16) :: (encChars cs ++ '"' :: rest) from rfl]
                    rw [psb_esc_u]
                    rw [show hexVal '0' = some 0 from rfl]
                    rw [hexVal_hexDigitChar (by omega), hexVal_hexDigitChar (by omega)]
                    rw [ih]
                    show Except.ok (Char.ofNat (((0 * 16 + 0) * 16 + c.toNat / 16) * 16 +
                      c.toNat % 16) :: cs, rest) = Except.ok (c :: cs, rest)
                    rw [show ((0 * 16 + 0) * 16 + c.toNat / 16) * 16 + c.toNat % 16 =
                      c.toNat from by omega]
                    rw [Char.ofNat_toNat]
                  · rw [show escapeChar c = [c] from by
                      unfold escapeChar
                      rw [if_neg (by simp [h34]), if_neg (by simp [h92]),
                        if_neg (by simp [h10]), if_neg (by simp [h13]),
                        if_neg (by simp [h9]), if_neg (by simp [h8]),
                        if_neg (by simp [h12]), if_neg hctl]]
                    rw [List.singleton_append]
                    rw [psb_lit h34 h92 hctl, ih]

end ProofByOutput

namespace ProofByOutput

theorem strMk_toList (l : List Char) : (String.mk l).toList = l := rfl

theorem mk_strToList (s : String) : String.mk s.toList = s := rfl

theorem JItems.itemsAppend_nil : ∀ (a : JItems), a.append .nil = a
  | .nil => rfl
  | .cons x xs => by simp only [JItems.append, JItems.itemsAppend_nil xs]

theorem JItems.itemsAppend_assoc : ∀ (a : JItems) (b c : JItems),
    (a.append b).append c = a.append (b.append c)
  | .nil, _, _ => rfl
  | .cons x xs, b, c => by simp only [JItems.append, JItems.itemsAppend_assoc xs b c]

theorem JMembers.membersAppend_nil : ∀ (a : JMembers), a.append .nil = a
  | .nil => rfl
  | .cons k v ms => by simp only [JMembers.append, JMembers.membersAppend_nil ms]

theorem JMembers.membersAppend_assoc : ∀ (a b c : JMembers),
    (a.append b).append c = a.append (b.append c)
  | .nil, _, _ => rfl
  | .cons k v ms, b, c => by simp only [JMembers.append, JMembers.membersAppend_assoc ms b c]

theorem JMembers.keyList_append : ∀ (a b : JMembers),
    (a.append b).keyList = a.keyList ++ b.keyList
  | .nil, _ => rfl
  | .cons k v ms, b => by
    simp only [JMembers.append, JMembers.keyList, JMembers.keyList_append ms b,
      List.cons_append]

theorem JMembers.insert_of_not_mem : ∀ {acc : JMembers} {k : String} (v : JValue),
    k ∉ acc.keyList → acc.insert k v = acc.append (.cons k v .nil)
  | .nil, _, _, _ => rfl
  | .cons k0 v0 ms, k, v, h => by
    simp only [JMembers.keyList, List.mem_cons] at h
    push_neg at h
    simp only [JMembers.insert, JMembers.append]
    rw [if_neg (by intro he; exact h.1 he.symm)]
    rw [JMembers.insert_of_not_mem v h.2]

theorem distinctKeys_nodup {l : List String} (h : distinctKeys l = true) : l.Nodup := by
  induction l with
  | nil => exact List.nodup_nil
  | cons k ks ih =>
    simp only [distinctKeys, Bool.and_eq_true, Bool.not_eq_eq_eq_not, Bool.not_true] at h
    refine List.nodup_cons.mpr ⟨?_, ih h.2⟩
    intro hm
    have : ks.contains k = true := List.elem_eq_true_of_mem hm
    rw [this] at h
    exact absurd h.1 (by simp)

theorem nodup_distinctKeys {l : List String} (h : l.Nodup) : distinctKeys l = true := by
  induction l with
  | nil => rfl
  | cons k ks ih =>
    obtain ⟨hk, hks⟩ := List.nodup_cons.mp h
    simp only [distinctKeys, Bool.and_eq_true, Bool.not_eq_eq_eq_not, Bool.not_true]
    constructor
    · by_cases hc : ks.contains k = true
      · exact absurd (List.mem_of_elem_eq_true hc) hk
      · simpa using hc
    · exact ih hks

theorem skipWs_append_ws {w l : List Char} (hw : ∀ c ∈ w, isJsonWs c = true) :
    skipWs (w ++ l) = skipWs l := dropWhile_append_of_all hw

theorem skipWs_not {c : Char} {l : List Char} (h : isJsonWs c = false) :
    skipWs (c :: l) = c :: l := List.dropWhile_cons_of_neg (by simp [h])

theorem nlInd_ws (lvl : Nat) : ∀ c ∈ nlInd lvl, isJsonWs c = true := by
  intro c hc
  unfold nlInd at hc
  rcases List.mem_cons.mp hc with rfl | hm
  · rfl
  · rw [List.eq_of_mem_replicate hm]
    rfl

theorem numSafeB_cons_of_ws {c : Char} (h : isJsonWs c = true) (t : List Char) :
    numSafeB (c :: t) = true := by
  simp only [isJsonWs, Bool.or_eq_true, beq_iff_eq] at h
  unfold numSafeB
  simp only [isDigitB, Bool.not_eq_eq_eq_not, Bool.not_true, Bool.or_eq_false_iff,
    Bool.and_eq_false_iff, beq_eq_false_iff_ne, ne_eq, decide_eq_false_iff_not]
  omega

theorem jfuel_pos : (∀ v : JValue, 1 ≤ jfuel v) ∧ (∀ xs : JItems, 1 ≤ jfuelItems xs) ∧
    (∀ ms : JMembers, 1 ≤ jfuelMembers ms) := by
  refine ⟨fun v => ?_, fun xs => ?_, fun ms => ?_⟩
  · cases v with
    | jarr items => cases items <;> (simp only [jfuel]; omega)
    | jobj members => cases members <;> (simp only [jfuel]; omega)
    | jnull => simp [jfuel]
    | jbool b => simp [jfuel]
    | jint n => simp [jfuel]
    | jstr s2 => simp [jfuel]
  · cases xs <;> (simp only [jfuelItems]; omega)
  · cases ms <;> (simp only [jfuelMembers]; omega)

theorem intRepr_head (i : Int) : ∃ c t, intRepr i = c :: t ∧
    (c.toNat = 45 ∨ (48 ≤ c.toNat ∧ c.toNat ≤ 57)) := by
  unfold intRepr
  by_cases hneg : i < 0
  · rw [if_pos hneg]
    exact ⟨'-', natDigits i.natAbs, rfl, Or.inl rfl⟩
  · rw [if_neg hneg]
    cases hnd : natDigits i.natAbs with
    | nil => exact absurd hnd (natDigits_ne_nil _)
    | cons c ds =>
      have hcd := natDigits_all_digits i.natAbs c (by rw [hnd]; simp)
      simp only [isDigitB, Bool.and_eq_true, decide_eq_true_eq] at hcd
      exact ⟨c, ds, rfl, Or.inr hcd⟩

theorem emitVal_head (lvl : Nat) (v : JValue) : ∃ c t, emitVal lvl v = c :: t ∧
    isJsonWs c = false ∧ c.toNat ≠ 93 ∧ c.toNat ≠ 125 := by
  cases v with
  | jnull => exact ⟨'n', _, by rw [emitVal.eq_def], by decide, by decide, by decide⟩
  | jbool b =>
    cases b with
    | true => exact ⟨'t', _, by rw [emitVal.eq_def], by decide, by decide, by decide⟩
    | false => exact ⟨'f', _, by rw [emitVal.eq_def], by decide, by decide, by decide⟩
  | jint i =>
    obtain ⟨c, t, he, hc⟩ := intRepr_head i
    refine ⟨c, t, by rw [emitVal.eq_def]; exact he, ?_, by omega, by omega⟩
    simp only [isJsonWs, Bool.or_eq_false_iff, beq_eq_false_iff_ne, ne_eq]
    omega
  | jstr s => exact ⟨'"', _, by rw [emitVal.eq_def]; rfl, by decide, by decide, by decide⟩
  | jarr items =>
    cases items with
    | nil => exact ⟨'[', _, by rw [emitVal.eq_def], by decide, by decide, by decide⟩
    | cons x xs => exact ⟨'[', _, by rw [emitVal.eq_def], by decide, by decide, by decide⟩
  | jobj members =>
    cases members with
    | nil => exact ⟨'\x7b', _, by rw [emitVal.eq_def], by decide, by decide, by decide⟩
    | cons k v ms => exact ⟨'\x7b', _, by rw [emitVal.eq_def], by decide, by decide, by decide⟩

end ProofByOutput

namespace ProofByOutput

theorem pv_null (m : Nat) (rest : List Char) :
    parseVal (m+1) ('n' :: 'u' :: 'l' :: 'l' :: rest) = .ok (.jnull, rest) := by
  simp only [parseVal]
  rw [if_neg (by decide), if_neg (by decide), if_neg (by decide), if_neg (by decide),
    if_neg (by decide), if_pos (by decide)]
  rfl

theorem pv_true (m : Nat) (rest : List Char) :
    parseVal (m+1) ('t' :: 'r' :: 'u' :: 'e' :: rest) = .ok (.jbool true, rest) := by
  simp only [parseVal]
  rw [if_neg (by decide), if_neg (by decide), if_neg (by decide), if_pos (by decide)]
  rfl

theorem pv_false (m : Nat) (rest : List Char) :
    parseVal (m+1) ('f' :: 'a' :: 'l' :: 's' :: 'e' :: rest) = .ok (.jbool false, rest) := by
  simp only [parseVal]
  rw [if_neg (by decide), if_neg (by decide), if_neg (by decide), if_neg (by decide),
    if_pos (by decide)]
  rfl

theorem pv_num (m : Nat) {c : Char} (cs : List Char)
    (h : c.toNat = 45 ∨ (48 ≤ c.toNat ∧ c.toNat ≤ 57)) :
    parseVal (m+1) (c :: cs) = parseNumber (c :: cs) := by
  simp only [parseVal]
  rw [if_neg (by simp only [beq_iff_eq]; omega), if_neg (by simp only [beq_iff_eq]; omega),
    if_neg (by simp only [beq_iff_eq]; omega), if_neg (by simp only [beq_iff_eq]; omega),
    if_neg (by simp only [beq_iff_eq]; omega), if_neg (by simp only [beq_iff_eq]; omega),
    if_pos (by
      simp only [Bool.or_eq_true, beq_iff_eq, isDigitB, Bool.and_eq_true, decide_eq_true_eq]
      omega)]

theorem pv_str (m : Nat) (X : List Char) :
    parseVal (m+1) ('"' :: X) =
      (match parseStringBody X with
       | .ok (s, r) => .ok (.jstr (String.mk s), r)
       | .error msg => .error msg) := by
  simp only [parseVal]
  rw [if_neg (by decide), if_neg (by decide), if_pos (by decide)]

theorem pv_arr (m : Nat) (X : List Char) :
    parseVal (m+1) ('[' :: X) =
      (match skipWs X with
       | [] => .error ("Expecting value")
       | d :: ds =>
         if d.toNat == 93 then .ok (.jarr .nil, ds)
         else
           match parseVal m (d :: ds) with
           | .ok (v, r1) => parseItems m r1 (JItems.cons v .nil)
           | .error msg => .error msg) := by
  simp only [parseVal]
  rw [if_neg (by decide), if_pos (by decide)]

theorem pv_obj (m : Nat) (X : List Char) :
    parseVal (m+1) ('\x7b' :: X) =
      (match skipWs X with
       | [] => .error ("Expecting property name enclosed in double quotes")
       | d :: ds =>
         if d.toNat == 125 then .ok (.jobj .nil, ds)
         else if d.toNat == 34 then
           match parseStringBody ds with
           | .ok (kchars, r1) =>
             (match skipWs r1 with
              | [] => .error ("Expecting : delimiter")
              | e :: es =>
                if e.toNat == 58 then
                  match parseVal m (skipWs es) with
                  | .ok (v, r2) =>
                    parseMembers m r2 (JMembers.nil.insert (String.mk kchars) v)
                  | .error msg => .error msg
                else .error ("Expecting : delimiter"))
           | .error msg => .error msg
         else .error ("Expecting property name enclosed in double quotes")) := by
  simp only [parseVal]
  rw [if_pos (by decide)]

theorem pi_step (m : Nat) (l : List Char) (acc : JItems) :
    parseItems (m+1) l acc =
      (match skipWs l with
       | [] => .error ("Expecting , delimiter")
       | c :: cs =>
         if c.toNat == 93 then .ok (.jarr acc, cs)
         else if c.toNat == 44 then
           match parseVal m (skipWs cs) with
           | .ok (v, r) => parseItems m r (acc.append (JItems.cons v .nil))
           | .error msg => .error msg
         else .error ("Expecting , delimiter")) := by
  simp only [parseItems]

theorem pm_step (m : Nat) (l : List Char) (acc : JMembers) :
    parseMembers (m+1) l acc =
      (match skipWs l with
       | [] => .error ("Expecting , delimiter")
       | c :: cs =>
         if c.toNat == 125 then .ok (.jobj acc, cs)
         else if c.toNat == 44 then
           match skipWs cs with
           | [] => .error ("Expecting property name enclosed in double quotes")
           | d :: ds =>
             if d.toNat == 34 then
               match parseStringBody ds with
               | .ok (kchars, r1) =>
                 (match skipWs r1 with
                  | [] => .error ("Expecting : delimiter")
                  | e :: es =>
                    if e.toNat == 58 then
                      match parseVal m (skipWs es) with
                      | .ok (v, r2) => parseMembers m r2 (acc.insert (String.mk kchars) v)
                      | .error msg => .error msg
                    else .error ("Expecting : delimiter"))
               | .error msg => .error msg
             else .error ("Expecting property name enclosed in double quotes")
         else .error ("Expecting , delimiter")) := by
  simp only [parseMembers]

theorem skipWs_cons_ws {c : Char} {l : List Char} (h : isJsonWs c = true) :
    skipWs (c :: l) = skipWs l := List.dropWhile_cons_of_pos h

theorem numSafeB_cons_of {c : Char} (h : isDigitB c = false ∧ c.toNat ≠ 46 ∧
    c.toNat ≠ 101 ∧ c.toNat ≠ 69) (t : List Char) : numSafeB (c :: t) = true := by
  unfold numSafeB
  simp only [Bool.not_eq_eq_eq_not, Bool.not_true, Bool.or_eq_false_iff,
    beq_eq_false_iff_ne, ne_eq]
  exact ⟨⟨⟨h.1, h.2.1⟩, h.2.2.1⟩, h.2.2.2⟩

theorem numSafeB_emitItems {lvl : Nat} (xs : JItems) {ws : List Char}
    (hw : ∀ c ∈ ws, isJsonWs c = true) {cl : Char}
    (hcl : isDigitB cl = false ∧ cl.toNat ≠ 46 ∧ cl.toNat ≠ 101 ∧ cl.toNat ≠ 69)
    (rest : List Char) :
    numSafeB (emitItems lvl xs ++ (ws ++ (cl :: rest))) = true := by
  cases xs with
  | cons y ys =>
    rw [show emitItems lvl (.cons y ys) =
      ',' :: (nlInd lvl ++ emitVal lvl y ++ emitItems lvl ys) from by rw [emitItems.eq_def]]
    rw [List.cons_append]
    exact numSafeB_cons_of (by decide) _
  | nil =>
    rw [show emitItems lvl .nil = [] from by rw [emitItems.eq_def]]
    rw [List.nil_append]
    cases ws with
    | nil =>
      rw [List.nil_append]
      exact numSafeB_cons_of hcl rest
    | cons w ws2 =>
      rw [List.cons_append]
      exact numSafeB_cons_of_ws (hw w (by simp)) _

theorem numSafeB_emitMembers {lvl : Nat} (ms : JMembers) {ws : List Char}
    (hw : ∀ c ∈ ws, isJsonWs c = true) {cl : Char}
    (hcl : isDigitB cl = false ∧ cl.toNat ≠ 46 ∧ cl.toNat ≠ 101 ∧ cl.toNat ≠ 69)
    (rest : List Char) :
    numSafeB (emitMembers lvl ms ++ (ws ++ (cl :: rest))) = true := by
  cases ms with
  | cons k v tail =>
    rw [show emitMembers lvl (.cons k v tail) =
      ',' :: (nlInd lvl ++ encodeString k ++ ':' :: ' ' ::
        (emitVal lvl v ++ emitMembers lvl tail)) from by rw [emitMembers.eq_def]]
    rw [List.cons_append]
    exact numSafeB_cons_of (by decide) _
  | nil =>
    rw [show emitMembers lvl .nil = [] from by rw [emitMembers.eq_def]]
    rw [List.nil_append]
    cases ws with
    | nil =>
      rw [List.nil_append]
      exact numSafeB_cons_of hcl rest
    | cons w ws2 =>
      rw [List.cons_append]
      exact numSafeB_cons_of_ws (hw w (by simp)) _

end ProofByOutput

namespace ProofByOutput

theorem parse_emit (N : Nat) :
    (∀ v : JValue, sizeOf v ≤ N → ∀ lvl rest fuel, jfuel v ≤ fuel →
      numSafeB rest = true → nodupKeys v = true →
      parseVal fuel (emitVal lvl v ++ rest) = .ok (v, rest)) ∧
    (∀ xs : JItems, sizeOf xs ≤ N → ∀ lvl ws rest fuel acc, jfuelItems xs ≤ fuel →
      (∀ c ∈ ws, isJsonWs c = true) → nodupKeysItems xs = true →
      parseItems fuel (emitItems lvl xs ++ (ws ++ (']' :: rest))) acc =
        .ok (.jarr (acc.append xs), rest)) ∧
    (∀ ms : JMembers, sizeOf ms ≤ N → ∀ lvl ws rest fuel acc, jfuelMembers ms ≤ fuel →
      (∀ c ∈ ws, isJsonWs c = true) → nodupKeysMembers ms = true →
      distinctKeys (acc.keyList ++ ms.keyList) = true →
      parseMembers fuel (emitMembers lvl ms ++ (ws ++ ('\x7d' :: rest))) acc =
        .ok (.jobj (acc.append ms), rest)) := by
  induction N using Nat.strong_induction_on with
  | _ N ih =>
    have ihP : ∀ v : JValue, sizeOf v < N → ∀ lvl rest fuel, jfuel v ≤ fuel →
        numSafeB rest = true → nodupKeys v = true →
        parseVal fuel (emitVal lvl v ++ rest) = .ok (v, rest) :=
      fun v hv => (ih (sizeOf v) hv).1 v le_rfl
    have ihQ : ∀ xs : JItems, sizeOf xs < N → ∀ lvl ws rest fuel acc,
        jfuelItems xs ≤ fuel → (∀ c ∈ ws, isJsonWs c = true) →
        nodupKeysItems xs = true →
        parseItems fuel (emitItems lvl xs ++ (ws ++ (']' :: rest))) acc =
          .ok (.jarr (acc.append xs), rest) :=
      fun xs hxs => (ih (sizeOf xs) hxs).2.1 xs le_rfl
    have ihR : ∀ ms : JMembers, sizeOf ms < N → ∀ lvl ws rest fuel acc,
        jfuelMembers ms ≤ fuel → (∀ c ∈ ws, isJsonWs c = true) →
        nodupKeysMembers ms = true →
        distinctKeys (acc.keyList ++ ms.keyList) = true →
        parseMembers fuel (emitMembers lvl ms ++ (ws ++ ('\x7d' :: rest))) acc =
          .ok (.jobj (acc.append ms), rest) :=
      fun ms hms => (ih (sizeOf ms) hms).2.2 ms le_rfl
    refine ⟨?_, ?_, ?_⟩
    · intro v hv lvl rest fuel hf hns hnd
      cases fuel with
      | zero => exact absurd (le_trans (jfuel_pos.1 v) hf) (by omega)
      | succ m =>
        cases v with
        | jnull =>
          rw [show emitVal lvl .jnull = ['n', 'u', 'l', 'l'] from by rw [emitVal.eq_def]]
          exact pv_null m rest
        | jbool b =>
          cases b with
          | true =>
            rw [show emitVal lvl (.jbool true) = ['t', 'r', 'u', 'e'] from by
              rw [emitVal.eq_def]]
            exact pv_true m rest
          | false =>
            rw [show emitVal lvl (.jbool false) = ['f', 'a', 'l', 's', 'e'] from by
              rw [emitVal.eq_def]]
            exact pv_false m rest
        | jint i =>
          rw [show emitVal lvl (.jint i) = intRepr i from by rw [emitVal.eq_def]]
          obtain ⟨c, t, he, hc⟩ := intRepr_head i
          rw [he, List.cons_append, pv_num m _ (by omega), ← List.cons_append, ← he]
          exact parseNumber_intRepr i hns
        | jstr s2 =>
          rw [show emitVal lvl (.jstr s2) = '"' :: (encChars s2.toList ++ ['"']) from by
            rw [emitVal.eq_def]; rfl]
          rw [List.cons_append, List.append_assoc, List.singleton_append]
          rw [pv_str m, parseStringBody_enc]
          simp only []
          rw [mk_strToList]
        | jarr items =>
          cases items with
          | nil =>
            rw [show emitVal lvl (.jarr .nil) = ['[', ']'] from by rw [emitVal.eq_def]]
            rw [show (['[', ']'] : List Char) ++ rest = '[' :: (']' :: rest) from rfl]
            rw [pv_arr m, skipWs_not (by decide)]
            simp only []
            rw [if_pos (by decide)]
          | cons x xs =>
            simp only [JValue.jarr.sizeOf_spec, JItems.cons.sizeOf_spec] at hv
            have hjf : jfuel (JValue.jarr (JItems.cons x xs)) =
                1 + jfuel x + jfuelItems xs := by rw [jfuel.eq_def]
            rw [hjf] at hf
            have hpx := jfuel_pos.1 x
            have hpxs := jfuel_pos.2.1 xs
            simp only [nodupKeys, nodupKeysItems, Bool.and_eq_true] at hnd
            rw [show emitVal lvl (.jarr (.cons x xs)) =
              '[' :: (nlInd (lvl+1) ++ emitVal (lvl+1) x ++ emitItems (lvl+1) xs ++
                nlInd lvl ++ [']']) from by rw [emitVal.eq_def]]
            rw [List.cons_append]
            simp only [List.append_assoc, List.singleton_append]
            rw [pv_arr m, skipWs_append_ws (nlInd_ws _)]
            obtain ⟨c0, t0, he0, hw0, h93, h125⟩ := emitVal_head (lvl+1) x
            rw [he0, List.cons_append, skipWs_not hw0]
            simp only []
            rw [if_neg (by simp [h93]), ← List.cons_append, ← he0]
            have hns1 : numSafeB (emitItems (lvl+1) xs ++
                (nlInd lvl ++ (']' :: rest))) = true :=
              numSafeB_emitItems xs (nlInd_ws lvl) (by decide) rest
            rw [ihP x (by omega) (lvl+1) _ m (by omega) hns1 hnd.1]
            simp only []
            rw [ihQ xs (by omega) (lvl+1) (nlInd lvl) rest m (JItems.cons x .nil)
              (by omega) (nlInd_ws lvl) hnd.2]
            rfl
        | jobj members =>
          cases members with
          | nil =>
            rw [show emitVal lvl (.jobj .nil) = ['\x7b', '\x7d'] from by rw [emitVal.eq_def]]
            rw [show (['\x7b', '\x7d'] : List Char) ++ rest = '\x7b' :: ('\x7d' :: rest)
              from rfl]
            rw [pv_obj m, skipWs_not (by decide)]
            simp only []
            rw [if_pos (by decide)]
          | cons k v0 ms =>
            simp only [JValue.jobj.sizeOf_spec, JMembers.cons.sizeOf_spec] at hv
            have hjf : jfuel (JValue.jobj (JMembers.cons k v0 ms)) =
                1 + jfuel v0 + jfuelMembers ms := by rw [jfuel.eq_def]
            rw [hjf] at hf
            have hpv := jfuel_pos.1 v0
            have hpms := jfuel_pos.2.2 ms
            simp only [nodupKeys, nodupKeysMembers, JMembers.keyList,
              Bool.and_eq_true] at hnd
            rw [show emitVal lvl (.jobj (.cons k v0 ms)) =
              '\x7b' :: (nlInd (lvl+1) ++ encodeString k ++ ':' :: ' ' ::
                (emitVal (lvl+1) v0 ++ emitMembers (lvl+1) ms ++ nlInd lvl ++ ['\x7d']))
              from by rw [emitVal.eq_def]]
            rw [show encodeString k = '"' :: (encChars k.toList ++ ['"']) from rfl]
            rw [List.cons_append]
            simp only [List.append_assoc, List.cons_append, List.singleton_append, List.nil_append]
            rw [pv_obj m, skipWs_append_ws (nlInd_ws _), skipWs_not (by decide)]
            simp only []
            rw [if_neg (by decide), if_pos (by decide), parseStringBody_enc]
            simp only []
            rw [skipWs_not (by decide)]
            simp only []
            rw [if_pos (by decide)]
            rw [skipWs_cons_ws (by decide)]
            obtain ⟨c1, t1, he1, hw1, _, _⟩ := emitVal_head (lvl+1) v0
            rw [he1, List.cons_append, skipWs_not hw1, ← List.cons_append, ← he1]
            have hns1 : numSafeB (emitMembers (lvl+1) ms ++
                (nlInd lvl ++ ('\x7d' :: rest))) = true :=
              numSafeB_emitMembers ms (nlInd_ws lvl) (by decide) rest
            rw [ihP v0 (by omega) (lvl+1) _ m (by omega) hns1 hnd.2.1]
            simp only []
            rw [mk_strToList]
            rw [show JMembers.nil.insert k v0 = JMembers.cons k v0 .nil from rfl]
            rw [ihR ms (by omega) (lvl+1) (nlInd lvl) rest m (JMembers.cons k v0 .nil)
              (by omega) (nlInd_ws lvl) hnd.2.2
              (by simpa [JMembers.keyList] using hnd.1)]
            rfl
    · intro xs hxs lvl ws rest fuel acc hf hw hnd
      cases fuel with
      | zero => exact absurd (le_trans (jfuel_pos.2.1 xs) hf) (by omega)
      | succ m =>
        cases xs with
        | nil =>
          rw [show emitItems lvl JItems.nil = [] from by rw [emitItems.eq_def]]
          rw [List.nil_append, pi_step m, skipWs_append_ws hw, skipWs_not (by decide)]
          simp only []
          rw [if_pos (by decide), JItems.itemsAppend_nil]
        | cons y ys =>
          simp only [JItems.cons.sizeOf_spec] at hxs
          have hjf : jfuelItems (JItems.cons y ys) = 1 + jfuel y + jfuelItems ys := by
            rw [jfuelItems.eq_def]
          rw [hjf] at hf
          have hpy := jfuel_pos.1 y
          have hpys := jfuel_pos.2.1 ys
          simp only [nodupKeysItems, Bool.and_eq_true] at hnd
          rw [show emitItems lvl (.cons y ys) =
            ',' :: (nlInd lvl ++ emitVal lvl y ++ emitItems lvl ys) from by
            rw [emitItems.eq_def]]
          rw [List.cons_append]
          simp only [List.append_assoc]
          rw [pi_step m, skipWs_not (by decide)]
          simp only []
          rw [if_neg (by decide), if_pos (by decide), skipWs_append_ws (nlInd_ws _)]
          obtain ⟨c1, t1, he1, hw1, _, _⟩ := emitVal_head lvl y
          rw [he1, List.cons_append, skipWs_not hw1, ← List.cons_append, ← he1]
          have hns1 : numSafeB (emitItems lvl ys ++ (ws ++ (']' :: rest))) = true :=
            numSafeB_emitItems ys hw (by decide) rest
          rw [ihP y (by omega) lvl _ m (by omega) hns1 hnd.1]
          simp only []
          rw [ihQ ys (by omega) lvl ws rest m (acc.append (JItems.cons y .nil))
            (by omega) hw hnd.2]
          rw [JItems.itemsAppend_assoc]
          rfl
    · intro ms hms lvl ws rest fuel acc hf hw hnd hdist
      cases fuel with
      | zero => exact absurd (le_trans (jfuel_pos.2.2 ms) hf) (by omega)
      | succ m =>
        cases ms with
        | nil =>
          rw [show emitMembers lvl JMembers.nil = [] from by rw [emitMembers.eq_def]]
          rw [List.nil_append, pm_step m, skipWs_append_ws hw, skipWs_not (by decide)]
          simp only []
          rw [if_pos (by decide), JMembers.membersAppend_nil]
        | cons k v0 ms2 =>
          simp only [JMembers.cons.sizeOf_spec] at hms
          have hjf : jfuelMembers (JMembers.cons k v0 ms2) =
              1 + jfuel v0 + jfuelMembers ms2 := by rw [jfuelMembers.eq_def]
          rw [hjf] at hf
          have hpv := jfuel_pos.1 v0
          have hpms := jfuel_pos.2.2 ms2
          simp only [nodupKeysMembers, Bool.and_eq_true] at hnd
          simp only [JMembers.keyList] at hdist
          have hknotin : k ∉ acc.keyList := by
            have hnod := distinctKeys_nodup hdist
            have hdisj := List.disjoint_of_nodup_append hnod
            intro hk
            exact hdisj hk (by simp)
          rw [show emitMembers lvl (.cons k v0 ms2) =
            ',' :: (nlInd lvl ++ encodeString k ++ ':' :: ' ' ::
              (emitVal lvl v0 ++ emitMembers lvl ms2)) from by rw [emitMembers.eq_def]]
          rw [show encodeString k = '"' :: (encChars k.toList ++ ['"']) from rfl]
          rw [List.cons_append]
          simp only [List.append_assoc, List.cons_append, List.singleton_append, List.nil_append]
          rw [pm_step m, skipWs_not (by decide)]
          simp only []
          rw [if_neg (by decide), if_pos (by decide), skipWs_append_ws (nlInd_ws _),
            skipWs_not (by decide)]
          simp only []
          rw [if_pos (by decide), parseStringBody_enc]
          simp only []
          rw [skipWs_not (by decide)]
          simp only []
          rw [if_pos (by decide)]
          rw [skipWs_cons_ws (by decide)]
          obtain ⟨c1, t1, he1, hw1, _, _⟩ := emitVal_head lvl v0
          rw [he1, List.cons_append, skipWs_not hw1, ← List.cons_append, ← he1]
          have hns1 : numSafeB (emitMembers lvl ms2 ++ (ws ++ ('\x7d' :: rest))) = true :=
            numSafeB_emitMembers ms2 hw (by decide) rest
          rw [ihP v0 (by omega) lvl _ m (by omega) hns1 hnd.1]
          simp only []
          rw [mk_strToList, JMembers.insert_of_not_mem v0 hknotin]
          have hdist2 : distinctKeys ((acc.append (JMembers.cons k v0 .nil)).keyList ++
              ms2.keyList) = true := by
            rw [JMembers.keyList_append]
            simp only [JMembers.keyList]
            rw [List.append_assoc, List.singleton_append]
            exact hdist
          rw [ihR ms2 (by omega) lvl ws rest m (acc.append (JMembers.cons k v0 .nil))
            (by omega) hw hnd.2 hdist2]
          rw [JMembers.membersAppend_assoc]
          rfl

end ProofByOutput

namespace ProofByOutput

theorem nlInd_length (lvl : Nat) : (nlInd lvl).length = 1 + 2 * lvl := by
  simp [nlInd]
  omega

theorem jfuel_le_emit (N : Nat) :
    (∀ v : JValue, sizeOf v ≤ N → ∀ lvl, jfuel v ≤ (emitVal lvl v).length + 1) ∧
    (∀ xs : JItems, sizeOf xs ≤ N → ∀ lvl,
      jfuelItems xs ≤ (emitItems lvl xs).length + 1) ∧
    (∀ ms : JMembers, sizeOf ms ≤ N → ∀ lvl,
      jfuelMembers ms ≤ (emitMembers lvl ms).length + 1) := by
  induction N using Nat.strong_induction_on with
  | _ N ih =>
    have ihP : ∀ v : JValue, sizeOf v < N → ∀ lvl,
        jfuel v ≤ (emitVal lvl v).length + 1 :=
      fun v hv => (ih (sizeOf v) hv).1 v le_rfl
    have ihQ : ∀ xs : JItems, sizeOf xs < N → ∀ lvl,
        jfuelItems xs ≤ (emitItems lvl xs).length + 1 :=
      fun xs hxs => (ih (sizeOf xs) hxs).2.1 xs le_rfl
    have ihR : ∀ ms : JMembers, sizeOf ms < N → ∀ lvl,
        jfuelMembers ms ≤ (emitMembers lvl ms).length + 1 :=
      fun ms hms => (ih (sizeOf ms) hms).2.2 ms le_rfl
    refine ⟨?_, ?_, ?_⟩
    · intro v hv lvl
      cases v with
      | jnull => have h1 : jfuel .jnull = 1 := rfl; omega
      | jbool b => have h1 : jfuel (.jbool b) = 1 := by cases b <;> rfl
                   omega
      | jint i => have h1 : jfuel (.jint i) = 1 := rfl; omega
      | jstr s2 => have h1 : jfuel (.jstr s2) = 1 := rfl; omega
      | jarr items =>
        cases items with
        | nil => have h1 : jfuel (.jarr .nil) = 1 := rfl; omega
        | cons x xs =>
          simp only [JValue.jarr.sizeOf_spec, JItems.cons.sizeOf_spec] at hv
          have h1 : jfuel (JValue.jarr (JItems.cons x xs)) =
              1 + jfuel x + jfuelItems xs := by rw [jfuel.eq_def]
          have h2 : emitVal lvl (.jarr (.cons x xs)) =
              '[' :: (nlInd (lvl+1) ++ emitVal (lvl+1) x ++ emitItems (lvl+1) xs ++
                nlInd lvl ++ [']']) := by rw [emitVal.eq_def]
          have hx := ihP x (by omega) (lvl+1)
          have hxs := ihQ xs (by omega) (lvl+1)
          rw [h1, h2]
          simp only [List.length_cons, List.length_append, nlInd_length,
            List.length_singleton]
          omega
      | jobj members =>
        cases members with
        | nil => have h1 : jfuel (.jobj .nil) = 1 := rfl; omega
        | cons k v0 ms =>
          simp only [JValue.jobj.sizeOf_spec, JMembers.cons.sizeOf_spec] at hv
          have h1 : jfuel (JValue.jobj (JMembers.cons k v0 ms)) =
              1 + jfuel v0 + jfuelMembers ms := by rw [jfuel.eq_def]
          have h2 : emitVal lvl (.jobj (.cons k v0 ms)) =
              '\x7b' :: (nlInd (lvl+1) ++ encodeString k ++ ':' :: ' ' ::
                (emitVal (lvl+1) v0 ++ emitMembers (lvl+1) ms ++ nlInd lvl ++
                  ['\x7d'])) := by rw [emitVal.eq_def]
          have hv0 := ihP v0 (by omega) (lvl+1)
          have hms := ihR ms (by omega) (lvl+1)
          rw [h1, h2]
          simp only [List.length_cons, List.length_append, nlInd_length,
            List.length_singleton]
          omega
    · intro xs hxs lvl
      cases xs with
      | nil => have h1 : jfuelItems .nil = 1 := rfl
               have h2 : emitItems lvl .nil = [] := rfl
               omega
      | cons x xs2 =>
        simp only [JItems.cons.sizeOf_spec] at hxs
        have h1 : jfuelItems (JItems.cons x xs2) = 1 + jfuel x + jfuelItems xs2 := by
          rw [jfuelItems.eq_def]
        have h2 : emitItems lvl (.cons x xs2) =
            ',' :: (nlInd lvl ++ emitVal lvl x ++ emitItems lvl xs2) := by
          rw [emitItems.eq_def]
        have hx := ihP x (by omega) lvl
        have hxs2 := ihQ xs2 (by omega) lvl
        rw [h1, h2]
        simp only [List.length_cons, List.length_append, nlInd_length]
        omega
    · intro ms hms lvl
      cases ms with
      | nil => have h1 : jfuelMembers .nil = 1 := rfl
               have h2 : emitMembers lvl .nil = [] := rfl
               omega
      | cons k v0 ms2 =>
        simp only [JMembers.cons.sizeOf_spec] at hms
        have h1 : jfuelMembers (JMembers.cons k v0 ms2) =
            1 + jfuel v0 + jfuelMembers ms2 := by rw [jfuelMembers.eq_def]
        have h2 : emitMembers lvl (.cons k v0 ms2) =
            ',' :: (nlInd lvl ++ encodeString k ++ ':' :: ' ' ::
              (emitVal lvl v0 ++ emitMembers lvl ms2)) := by rw [emitMembers.eq_def]
        have hv0 := ihP v0 (by omega) lvl
        have hms2 := ihR ms2 (by omega) lvl
        rw [h1, h2]
        simp only [List.length_cons, List.length_append, nlInd_length]
        omega

theorem loads_dumps (v : JValue) (h : nodupKeys v = true) :
    loads (dumps v) = .ok v := by
  have hfe := (jfuel_le_emit (sizeOf v)).1 v le_rfl 0
  have hmain := (parse_emit (sizeOf v)).1 v le_rfl 0 []
    ((emitVal 0 v).length + 1) hfe rfl h
  rw [List.append_nil] at hmain
  unfold loads dumps
  rw [strMk_toList]
  obtain ⟨c, t, he, hw, _, _⟩ := emitVal_head 0 v
  rw [he, skipWs_not hw, ← he, hmain]
  rfl

end ProofByOutput

namespace ProofByOutput

theorem nodupKeys_recordPayload (created : DateTime) (topic explanation : String)
    (result : JValue) (h : nodupKeys result = true) :
    nodupKeys (recordPayload created topic explanation result) = true := by
  unfold recordPayload
  simp only [nodupKeys, nodupKeysMembers, JMembers.keyList, Bool.and_eq_true]
  refine ⟨by decide, ?_⟩
  simp [nodupKeys, h]

/-- Claim C3: the contents save_record writes for a payload parse back,
with json.loads, to exactly the payload that was saved, so topic,
explanation, char_count and every field of result are preserved,
non-ASCII text included; the hypothesis states that every object inside
result has distinct keys, which holds of every value a dict-based JSON
decoder can produce. -/
theorem save_record_round_trip (tsNow createdNow : DateTime)
    (topic explanation : String) (result : JValue) (h : nodupKeys result = true) :
    loads ((save_record tsNow createdNow topic explanation result).2) =
      .ok (recordPayload createdNow topic explanation result) :=
  loads_dumps _ (nodupKeys_recordPayload createdNow topic explanation result h)

theorem save_record_round_trip_witness :
    nodupKeys sampleResult = true ∧
    loads ((save_record sampleDT sampleDT ("TypeScriptのUnion型")
        ("Union型とは複数の型のいずれかを取る型です。") sampleResult).2) =
      .ok (recordPayload sampleDT ("TypeScriptのUnion型")
        ("Union型とは複数の型のいずれかを取る型です。") sampleResult) :=
  ⟨by decide, save_record_round_trip sampleDT sampleDT _ _ _ (by decide)⟩

end ProofByOutput

namespace ProofByOutput

/-- Claim C4: a reply whose content json.loads rejects makes evaluate
fail with the exception that models ParseError — app.py raises
RuntimeError whose message embeds the decode failure reason and the raw
offending text, web_app.py lets json.JSONDecodeError propagate with the
reason and the raw document — and in both front ends the failure is
caught by the surrounding handler, which turns it into an error display
with the store untouched, so the process does not terminate. -/
theorem evaluate_parse_error (content e : String) (hl : loads content = .error e)
    (store : List (String × String)) (tsNow createdNow : DateTime)
    (topic explanation : String)
    (hva : (App.validate_input topic explanation).1 = true)
    (hvw : (Web.validate_input true topic explanation).1 = true) :
    App.evaluate (.ok content) = .error (.runtimeError (parseFailMsg e content)) ∧
    Web.evaluate (.ok content) = .error (.jsonDecodeError e content) ∧
    App.runDiagnosis store tsNow createdNow topic explanation (.ok content) =
      ("実行エラー: " ++ parseFailMsg e content, store) ∧
    Web.runDiagnosis store true tsNow createdNow topic explanation (.ok content) =
      (Web.jsonFailBanner, store) := by
  have hea : App.evaluate (.ok content) =
      .error (.runtimeError (parseFailMsg e content)) := by
    unfold App.evaluate
    simp only []
    rw [hl]
  have hew : Web.evaluate (.ok content) = .error (.jsonDecodeError e content) := by
    unfold Web.evaluate
    simp only []
    rw [hl]
  refine ⟨hea, hew, ?_, ?_⟩
  · rcases h : App.validate_input topic explanation with ⟨ok, msg⟩
    rw [h] at hva
    have hok : ok = true := hva
    subst hok
    unfold App.runDiagnosis
    rw [h]
    simp only []
    rw [hea]
    rfl
  · rcases h : Web.validate_input true topic explanation with ⟨ok, msg⟩
    rw [h] at hvw
    have hok : ok = true := hvw
    subst hok
    unfold Web.runDiagnosis
    rw [h]
    simp only []
    rw [hew]

theorem evaluate_parse_error_witness :
    loads ("not json") = .error ("Expecting value") ∧
    App.runDiagnosis [] sampleDT sampleDT ("t") sampleSixty (.ok ("not json")) =
      ("実行エラー: " ++ parseFailMsg ("Expecting value") ("not json"), []) :=
  ⟨rfl, (evaluate_parse_error ("not json") ("Expecting value") rfl [] sampleDT
    sampleDT ("t") sampleSixty (by decide) (by decide)).2.2.1⟩

/-- Claim C5: a transport failure of the external call surfaces from
evaluate as the exception modeling ServiceError, carrying the underlying
cause, in both front ends; and the store each front end returns from the
interaction is unchanged, so no record is written. -/
theorem evaluate_service_error (cause : String) (store : List (String × String))
    (apiKey : Bool) (tsNow createdNow : DateTime) (topic explanation : String) :
    App.evaluate (.error cause) = .error (.serviceExc cause) ∧
    Web.evaluate (.error cause) = .error (.serviceExc cause) ∧
    (App.runDiagnosis store tsNow createdNow topic explanation (.error cause)).2 =
      store ∧
    (Web.runDiagnosis store apiKey tsNow createdNow topic explanation
      (.error cause)).2 = store := by
  refine ⟨rfl, rfl, ?_, ?_⟩
  · rcases h : App.validate_input topic explanation with ⟨ok, msg⟩
    unfold App.runDiagnosis
    rw [h]
    cases ok
    · rfl
    · rfl
  · rcases h : Web.validate_input apiKey topic explanation with ⟨ok, msg⟩
    unfold Web.runDiagnosis
    rw [h]
    cases ok
    · rfl
    · rfl

end ProofByOutput

namespace ProofByOutput

theorem strLtB_irrefl : ∀ l : List Char, strLtB l l = false
  | [] => rfl
  | c :: cs => by
    simp only [strLtB]
    rw [if_neg (by omega), if_neg (by omega)]
    exact strLtB_irrefl cs

theorem strLtB_trans : ∀ a b c : List Char,
    strLtB a b = true → strLtB b c = true → strLtB a c = true
  | [], [], _, h1, _ => by simp [strLtB] at h1
  | [], _ :: _, [], _, h2 => by simp [strLtB] at h2
  | [], _ :: _, _ :: _, _, _ => rfl
  | _ :: _, [], _, h1, _ => by simp [strLtB] at h1
  | _ :: _, _ :: _, [], _, h2 => by simp [strLtB] at h2
  | x :: xs, y :: ys, z :: zs, h1, h2 => by
    simp only [strLtB] at h1 h2 ⊢
    by_cases hxy : x.toNat < y.toNat
    · by_cases hyz : y.toNat < z.toNat
      · rw [if_pos (by omega)]
      · rw [if_neg hyz] at h2
        by_cases hzy : z.toNat < y.toNat
        · rw [if_pos hzy] at h2
          cases h2
        · rw [if_neg hzy] at h2
          rw [if_pos (by omega)]
    · rw [if_neg hxy] at h1
      by_cases hyx : y.toNat < x.toNat
      · rw [if_pos hyx] at h1
        cases h1
      · rw [if_neg hyx] at h1
        by_cases hyz : y.toNat < z.toNat
        · rw [if_pos (by omega)]
        · rw [if_neg hyz] at h2
          by_cases hzy : z.toNat < y.toNat
          · rw [if_pos hzy] at h2
            cases h2
          · rw [if_neg hzy] at h2
            rw [if_neg (by omega), if_neg (by omega)]
            exact strLtB_trans xs ys zs h1 h2

theorem strLtB_eq_of_not : ∀ a b : List Char,
    strLtB a b = false → strLtB b a = false → a = b
  | [], [], _, _ => rfl
  | [], _ :: _, h1, _ => by simp [strLtB] at h1
  | _ :: _, [], _, h2 => by simp [strLtB] at h2
  | x :: xs, y :: ys, h1, h2 => by
    simp only [strLtB] at h1 h2
    by_cases hxy : x.toNat < y.toNat
    · rw [if_pos hxy] at h1
      cases h1
    · by_cases hyx : y.toNat < x.toNat
      · rw [if_pos hyx] at h2
        cases h2
      · rw [if_neg hxy, if_neg hyx] at h1
        rw [if_neg hyx, if_neg hxy] at h2
        have hxs : xs = ys := strLtB_eq_of_not xs ys h1 h2
        have hx : x = y := char_eq_of_toNat_eq (by omega)
        rw [hx, hxs]

theorem strLtB_false_trans (a b c : List Char) (h1 : strLtB a b = false)
    (h2 : strLtB b c = false) : strLtB a c = false := by
  by_contra hc
  rw [Bool.not_eq_false] at hc
  by_cases hba : strLtB b a = true
  · have hbc := strLtB_trans b a c hba hc
    rw [hbc] at h2
    cases h2
  · have hba2 : strLtB b a = false := by
      cases hb : strLtB b a
      · rfl
      · exact absurd hb hba
    have hab : a = b := strLtB_eq_of_not a b h1 hba2
    subst hab
    rw [h2] at hc
    cases hc

theorem strLtB_false_total (a b : List Char) :
    strLtB a b = false ∨ strLtB b a = false := by
  by_cases h1 : strLtB a b = true
  · right
    by_contra h2
    rw [Bool.not_eq_false] at h2
    have haa := strLtB_trans a b a h1 h2
    rw [strLtB_irrefl] at haa
    cases haa
  · left
    cases h : strLtB a b
    · rfl
    · exact absurd h h1

theorem histLe_trans : ∀ a b c : String × String, nameLe b.1 a.1 = true →
    nameLe c.1 b.1 = true → nameLe c.1 a.1 = true := by
  intro a b c h1 h2
  unfold nameLe at h1 h2 ⊢
  rw [Bool.not_eq_true'] at h1 h2 ⊢
  exact strLtB_false_trans _ _ _ h1 h2

theorem histLe_total : ∀ a b : String × String,
    (nameLe b.1 a.1 || nameLe a.1 b.1) = true := by
  intro a b
  unfold nameLe
  rcases strLtB_false_total a.1.toList b.1.toList with h | h
  · rw [h]
    rfl
  · rw [h]
    cases strLtB a.1.toList b.1.toList
    · rfl
    · rfl

/-- Claim C8 counterexample: a stored *.json entry whose contents are not
valid JSON is skipped by load_history, but nothing is logged — the
source's except branch is a bare continue, so the log component of the
result is empty; this refutes the claim that the failure is logged. -/
theorem C8_counterexample :
    loads ("oops") = .error ("Expecting value") ∧
    load_history [(("bad.json"), ("oops"))] 30 = ([], []) := by
  refine ⟨rfl, ?_⟩
  unfold load_history sortedJsonFiles
  rw [show (List.filter (fun e => isJsonName e.1) [(("bad.json"), ("oops"))]) =
    [(("bad.json"), ("oops"))] from rfl]
  rw [List.mergeSort_of_sorted (List.pairwise_singleton _ _)]
  rfl

/-- Claim C8 (amended): load_history returns at most limit records, its
record list is the parse of the first limit stored *.json files in a
stable descending sort by file name (reverse lexical order), any entry
whose contents fail to parse as JSON is skipped without crashing, and
nothing is logged: the log component of the result is always empty,
because the except branch of the source is a bare continue. -/
theorem load_history_contract (store : List (String × String)) (limit : Nat) :
    (load_history store limit).1.length ≤ limit ∧
    (load_history store limit).2 = [] ∧
    List.Pairwise (fun a b => nameLe b.1 a.1 = true) (sortedJsonFiles store) ∧
    (load_history store limit).1 =
      ((sortedJsonFiles store).take limit).filterMap parseHistoryEntry ∧
    (∀ name content msg, loads content = .error msg →
      parseHistoryEntry (name, content) = none) := by
  refine ⟨?_, rfl, ?_, rfl, ?_⟩
  · calc (load_history store limit).1.length
        ≤ ((sortedJsonFiles store).take limit).length :=
          List.length_filterMap_le _ _
      _ ≤ limit := List.length_take_le _ _
  · unfold sortedJsonFiles
    exact List.sorted_mergeSort histLe_trans histLe_total _
  · intro name content msg hmsg
    unfold parseHistoryEntry
    simp only []
    rw [hmsg]

theorem load_history_contract_witness :
    parseHistoryEntry (("bad2.json"), ("oops2")) = none :=
  (load_history_contract [(("bad2.json"), ("oops2"))] 30).2.2.2.2
    ("bad2.json") ("oops2") ("Expecting value") rfl

/-- Claim C10: every record load_history returns is one of the stored
*.json files' parses, a JSON object, returned unmodified apart from one
additional top-level key _file holding the path of the file it was
loaded from. -/
theorem load_history_file_key (store : List (String × String)) (limit : Nat) :
    ∀ r ∈ (load_history store limit).1, ∃ name content ms,
      (name, content) ∈ store ∧ loads content = .ok (.jobj ms) ∧
      r = .jobj (ms.insert ("_file") (.jstr (pathOf name))) := by
  intro r hr
  unfold load_history at hr
  simp only [] at hr
  rw [List.mem_filterMap] at hr
  obtain ⟨en, he, hpe⟩ := hr
  have he2 : en ∈ sortedJsonFiles store := List.mem_of_mem_take he
  have he3 : en ∈ store := by
    unfold sortedJsonFiles at he2
    rw [List.mem_mergeSort] at he2
    exact (List.mem_filter.mp he2).1
  unfold parseHistoryEntry at hpe
  cases hle : loads en.2 with
  | error msg =>
    rw [hle] at hpe
    cases hpe
  | ok v =>
    rw [hle] at hpe
    cases v with
    | jobj ms =>
      cases hpe
      exact ⟨en.1, en.2, ms, he3, hle, rfl⟩
    | jnull => cases hpe
    | jbool b => cases hpe
    | jint i => cases hpe
    | jstr s2 => cases hpe
    | jarr xs => cases hpe

theorem load_history_file_key_witness :
    ∃ name content ms,
      (name, content) ∈ [(("a.json"), ("\x7b\x7d"))] ∧
      loads content = .ok (.jobj ms) ∧
      JValue.jobj (JMembers.cons ("_file") (.jstr ("outputs/a.json")) .nil) =
        .jobj (ms.insert ("_file") (.jstr (pathOf name))) :=
  load_history_file_key [(("a.json"), ("\x7b\x7d"))] 30
    (.jobj (.cons ("_file") (.jstr ("outputs/a.json")) .nil))
    (by
      have hcalc : (load_history [(("a.json"), ("\x7b\x7d"))] 30).1 =
          [JValue.jobj (JMembers.cons ("_file") (.jstr ("outputs/a.json")) .nil)] := by
        unfold load_history sortedJsonFiles
        rw [show (List.filter (fun e => isJsonName e.1) [(("a.json"), ("\x7b\x7d"))]) =
          [(("a.json"), ("\x7b\x7d"))] from rfl]
        rw [List.mergeSort_of_sorted (List.pairwise_singleton _ _)]
        rfl
      rw [hcalc]
      exact List.mem_singleton_self _)

end ProofByOutput

namespace ProofByOutput

theorem natDigits_length_le : ∀ k n : Nat, 1 ≤ k → n < 10 ^ k →
    (natDigits n).length ≤ k := by
  intro k
  induction k with
  | zero => omega
  | succ k ih =>
    intro n hk hlt
    by_cases h : n < 10
    · rw [natDigits_lt h]
      simp
    · rw [natDigits_ge (by omega)]
      rw [List.length_append, List.length_singleton]
      have hk1 : 1 ≤ k := by
        rcases Nat.eq_zero_or_pos k with hz | hp
        · subst hz
          simp at hlt
          omega
        · exact hp
      have hpow : 10 ^ (k + 1) = 10 * 10 ^ k := by ring
      have hdiv := ih (n / 10) hk1 (by omega)
      omega

theorem padDigits_length {w n : Nat} (hw : 1 ≤ w) (h : n < 10 ^ w) :
    (padDigits w n).length = w := by
  have hle := natDigits_length_le w n hw h
  simp only [padDigits, List.length_append, List.length_replicate]
  omega

theorem padDigits_digits (w n : Nat) : ∀ c ∈ padDigits w n, isDigitB c = true := by
  intro c hc
  rw [padDigits, List.mem_append] at hc
  rcases hc with hc | hc
  · rw [List.mem_replicate] at hc
    rw [hc.2]
    decide
  · exact natDigits_all_digits n c hc

theorem strftimeTs_pattern (t : DateTime) (hy : t.year < 10000)
    (hmo : t.month < 100) (hd : t.day < 100) (hh : t.hour < 100)
    (hmi : t.minute < 100) (hs : t.second < 100) :
    matchesTsPattern (strftimeTs t) := by
  have h4 : (10000 : Nat) = 10 ^ 4 := by norm_num
  have h2 : (100 : Nat) = 10 ^ 2 := by norm_num
  rw [h4] at hy
  rw [h2] at hmo hd hh hmi hs
  refine ⟨padDigits 4 t.year ++ padDigits 2 t.month ++ padDigits 2 t.day,
    padDigits 2 t.hour ++ padDigits 2 t.minute ++ padDigits 2 t.second,
    ?_, ?_, ?_, ?_, ?_⟩
  · unfold strftimeTs
    rw [strMk_toList]
  · simp only [List.length_append]
    rw [padDigits_length (by omega) hy, padDigits_length (by omega) hmo,
      padDigits_length (by omega) hd]
  · simp only [List.length_append]
    rw [padDigits_length (by omega) hh, padDigits_length (by omega) hmi,
      padDigits_length (by omega) hs]
  · intro c hc
    simp only [List.mem_append] at hc
    rcases hc with (hc | hc) | hc
    · exact padDigits_digits 4 t.year c hc
    · exact padDigits_digits 2 t.month c hc
    · exact padDigits_digits 2 t.day c hc
  · intro c hc
    simp only [List.mem_append] at hc
    rcases hc with (hc | hc) | hc
    · exact padDigits_digits 2 t.hour c hc
    · exact padDigits_digits 2 t.minute c hc
    · exact padDigits_digits 2 t.second c hc

/-- Claim C9: the payload save_record writes is a JSON object whose
top-level keys are exactly app, created_at, topic, explanation,
char_count and result, in that order, with char_count equal to
count_chars of the stored explanation and result stored unchanged; and
the file name is the strftime timestamp, an underscore, the slug and
.json, where the timestamp matches the YYYYMMDD_HHMMSS pattern whenever
the calendar fields are in their conventional ranges. -/
theorem save_record_shape (tsNow createdNow : DateTime)
    (topic explanation : String) (result : JValue)
    (hy : tsNow.year < 10000) (hmo : tsNow.month < 100) (hd : tsNow.day < 100)
    (hh : tsNow.hour < 100) (hmi : tsNow.minute < 100) (hs : tsNow.second < 100) :
    (∃ ms : JMembers,
      recordPayload createdNow topic explanation result = .jobj ms ∧
      ms.keyList = [("app"), ("created_at"), ("topic"), ("explanation"),
        ("char_count"), ("result")] ∧
      ms.lookup ("char_count") = some (.jint (count_chars explanation)) ∧
      ms.lookup ("result") = some result) ∧
    (save_record tsNow createdNow topic explanation result).1 =
      strftimeTs tsNow ++ "_" ++ safe_filename topic ++ ".json" ∧
    matchesTsPattern (strftimeTs tsNow) := by
  refine ⟨⟨_, rfl, rfl, ?_, ?_⟩, rfl, strftimeTs_pattern tsNow hy hmo hd hh hmi hs⟩
  · simp [JMembers.lookup]
  · simp [JMembers.lookup]

theorem save_record_shape_witness :
    sampleDT.year < 10000 ∧ sampleDT.month < 100 ∧ sampleDT.day < 100 ∧
    sampleDT.hour < 100 ∧ sampleDT.minute < 100 ∧ sampleDT.second < 100 ∧
    matchesTsPattern (strftimeTs sampleDT) :=
  ⟨by decide, by decide, by decide, by decide, by decide, by decide,
    (save_record_shape sampleDT sampleDT ("t") ("e") .jnull (by decide) (by decide)
      (by decide) (by decide) (by decide) (by decide)).2.2⟩

end ProofByOutput
